import Mathlib

/-!
Shallow embedding of the fibersplice OCR label-ingestion core:
* the text canonicalizer (`normalizeCircuitId`, two versions of `cleanOcrText`)
  from `src/unnamed/part_000`, modelled on `List Char`;
* the image preprocessing stages (`autoContrast`, `invertIfDarkBackground`,
  `adaptiveThreshold`, `sharpen`) from `src/client/src/lib/imagePreprocess.ts`,
  modelled on lists of luminance values resp. pixel grids of naturals.

JavaScript `Math.round` on the nonnegative rationals that occur here is
`fun q => Nat.floor (q + 1/2)`; float arithmetic in the source is exact on the
integer sums and small quotients involved, so naturals/rationals model it
faithfully.
-/

/-- Character class `[A-Za-z0-9]` used by both extraction regexes. -/
def isAlnumChar (c : Char) : Bool :=
  ('A' ≤ c && c ≤ 'Z') || ('a' ≤ c && c ≤ 'z') || ('0' ≤ c && c ≤ '9')

/-- Character class `\d`. -/
def isDigitChar (c : Char) : Bool :=
  '0' ≤ c && c ≤ '9'

/-- JavaScript word-character class `\w = [A-Za-z0-9_]`, used by `\b`. -/
def isWordChar (c : Char) : Bool :=
  isAlnumChar c || c = '_'

/-- Whitespace as used by JavaScript `\s`, `trim` (ASCII part). -/
def isSpaceChar (c : Char) : Bool :=
  c = ' ' || c = '\t' || c = '\n' || c = '\r' || c = '\x0b' || c = '\x0c'

/-- `String.prototype.trim`. -/
def trimL (l : List Char) : List Char :=
  ((l.dropWhile isSpaceChar).reverse.dropWhile isSpaceChar).reverse

/-- Drop characters up to and including the first occurrence of `stop`;
`none` when `stop` does not occur. -/
def dropThrough (stop : Char) : List Char → Option (List Char)
  | [] => none
  | c :: r => if c = stop then some r else dropThrough stop r

/-- Structural worker for `removeGroup`; `fuel` only forces termination and
is irrelevant as soon as it is at least the length of the list
(`removeGroupF_fuel`). -/
def removeGroupF (op cl : Char) : Nat → List Char → List Char
  | _, [] => []
  | 0, l => l
  | fuel + 1, c :: r =>
    if c = op then
      match dropThrough cl r with
      | some after => removeGroupF op cl fuel after
      | none => c :: r
    else c :: removeGroupF op cl fuel r

/-- One global-regex pass removing every `op … cl` group, non-greedy
(matches `line.replace` with `/\(​[^)]*\)/g` for `op = '('`, `cl = ')'`, and
the angle-bracket variant); an `op` with no later `cl` is left as-is. -/
def removeGroup (op cl : Char) (l : List Char) : List Char :=
  removeGroupF op cl l.length l

/-- `N` or `n`. -/
def isNchar (c : Char) : Bool := c = 'N' || c = 'n'

/-- `C` or `c`. -/
def isCchar (c : Char) : Bool := c = 'C' || c = 'c'

/-- Whether a word boundary `\b` lies before the given tail of the line. -/
def boundaryNext : List Char → Bool
  | [] => true
  | d :: _ => !isWordChar d

/-- One global pass of `line.replace` with `/\bNC\b/gi`: `prev` records
whether the character just before the current position (in the original line)
is a word character, which is what the leading `\b` tests. -/
def removeNC : Bool → List Char → List Char
  | _, [] => []
  | _, [a] => [a]
  | prev, a :: b :: r =>
    if !prev && isNchar a && isCchar b && boundaryNext r then
      removeNC true r
    else
      a :: removeNC (isWordChar a) (b :: r)

/-- `line.replace` sending each `@` to `0`. -/
def replaceAtSign : List Char → List Char
  | [] => []
  | c :: r => (if c = '@' then '0' else c) :: replaceAtSign r

/-- Attempt the comma-dash regex `([A-Za-z0-9]+),(\d+)-(\d+)` anchored at the
head of `l`; a greedy run followed by a literal can only match maximally. -/
def tryCommaDash (l : List Char) : Option (List Char × List Char × List Char) :=
  let p := l.takeWhile isAlnumChar
  if p.isEmpty then none else
  match l.dropWhile isAlnumChar with
  | c1 :: r2 =>
    if c1 = ',' then
      let s := r2.takeWhile isDigitChar
      if s.isEmpty then none else
      match r2.dropWhile isDigitChar with
      | c2 :: r4 =>
        if c2 = '-' then
          let e := r4.takeWhile isDigitChar
          if e.isEmpty then none else some (p, s, e)
        else none
      | [] => none
    else none
  | [] => none

/-- `line.match` with `/([A-Za-z0-9]+),(\d+)-(\d+)/`: leftmost match,
scanning start positions left to right. -/
def commaDashFind : List Char → Option (List Char × List Char × List Char)
  | [] => none
  | c :: r =>
    match tryCommaDash (c :: r) with
    | some g => some g
    | none => commaDashFind r

/-- `line.trim().match` with `/^([A-Za-z0-9]*)\s+(\d+)\s+(\d+)/`: anchored;
on a trimmed line backtracking of the greedy runs can never succeed, so each
run is maximal. -/
def spaceShapeFind (l : List Char) : Option (List Char × List Char × List Char) :=
  let p := l.takeWhile isAlnumChar
  let r1 := l.dropWhile isAlnumChar
  let w1 := r1.takeWhile isSpaceChar
  if w1.isEmpty then none else
  let r2 := r1.dropWhile isSpaceChar
  let s := r2.takeWhile isDigitChar
  if s.isEmpty then none else
  let r3 := r2.dropWhile isDigitChar
  let w2 := r3.takeWhile isSpaceChar
  if w2.isEmpty then none else
  let r4 := r3.dropWhile isSpaceChar
  let e := r4.takeWhile isDigitChar
  if e.isEmpty then none else some (p, s, e)

/-- Noise-removal phase of `cleanOcrText` (both versions), steps 1–4 in
source order: parentheses, angle brackets, whole-word `NC`, `@` → `0`. -/
def noiseClean (l : List Char) : List Char :=
  replaceAtSign (removeNC false (removeGroup '<' '>' (removeGroup '(' ')' l)))

/-- Per-line body of the second `cleanOcrText` (comma-dash first, then the
whitespace-shape fallback, else drop the line). -/
def cleanLineV2 (line : List Char) : List (List Char) :=
  if (trimL line).isEmpty then [] else
  let l1 := noiseClean line
  match commaDashFind l1 with
  | some (p, s, e) => [p ++ ',' :: (s ++ '-' :: e)]
  | none =>
    match spaceShapeFind (trimL l1) with
    | some (p, s, e) => [trimL (p ++ ' ' :: (s ++ ' ' :: e))]
    | none => []

/-- Per-line body of the first `cleanOcrText` (comma-dash only). -/
def cleanLineV1 (line : List Char) : List (List Char) :=
  if (trimL line).isEmpty then [] else
  let l1 := noiseClean line
  match commaDashFind l1 with
  | some (p, s, e) => [p ++ ',' :: (s ++ '-' :: e)]
  | none => []

/-- `text.split` at newline characters. -/
def splitNl : List Char → List (List Char)
  | [] => [[]]
  | c :: r =>
    if c = '\n' then [] :: splitNl r else
    match splitNl r with
    | [] => [[c]]
    | a :: rest => (c :: a) :: rest

/-- Second version of `cleanOcrText` (`src/unnamed/part_000`, lines 126–176). -/
def cleanOcrTextV2L (t : List Char) : List Char :=
  if (trimL t).isEmpty then [] else
  List.intercalate ['\n'] (((splitNl t).map cleanLineV2).flatten)

/-- First version of `cleanOcrText` (`src/unnamed/part_000`, lines 45–83). -/
def cleanOcrTextV1L (t : List Char) : List Char :=
  if (trimL t).isEmpty then [] else
  List.intercalate ['\n'] (((splitNl t).map cleanLineV1).flatten)

/-- Structural worker for `wsTokens`; `fuel` only forces termination and is
irrelevant as soon as it is at least the length of the list
(`wsTokensF_fuel`). -/
def wsTokensF : Nat → List Char → List (List Char)
  | _, [] => []
  | 0, _ => []
  | fuel + 1, c :: r =>
    if isSpaceChar c then wsTokensF fuel r else
    (c :: r.takeWhile (fun d => !isSpaceChar d)) ::
      wsTokensF fuel (r.dropWhile (fun d => !isSpaceChar d))

/-- Tokens of `input.trim().split(/\s+/).filter(p => p.length > 0)`:
the maximal non-whitespace runs, in order. -/
def wsTokens (l : List Char) : List (List Char) :=
  wsTokensF l.length l

/-- `normalizeCircuitId` (`src/unnamed/part_000`, lines 10–28). -/
def normalizeCircuitIdL (input : List Char) : List Char :=
  if (trimL input).isEmpty then input else
  let parts := wsTokens (trimL input)
  if parts.length < 3 then input else
  let e := parts.getD (parts.length - 1) []
  let s := parts.getD (parts.length - 2) []
  let pfx := (parts.take (parts.length - 2)).flatten
  pfx ++ ',' :: (s ++ '-' :: e)

/-- String-level second `cleanOcrText`. -/
def cleanOcrText (s : String) : String := ⟨cleanOcrTextV2L s.data⟩

/-- String-level first `cleanOcrText`. -/
def cleanOcrTextV1 (s : String) : String := ⟨cleanOcrTextV1L s.data⟩

/-- String-level `normalizeCircuitId`. -/
def normalizeCircuitId (s : String) : String := ⟨normalizeCircuitIdL s.data⟩

/-- The canonicalizer pass applied to OCR output: clean, then normalize. -/
def cleanNormalize (s : String) : String := normalizeCircuitId (cleanOcrText s)

/-- The `let min = 255; if (v < min) min = v` scan of `autoContrast`
(`imagePreprocess.ts`, lines 53–74). -/
def minScan (l : List Nat) : Nat :=
  l.foldl (fun m v => if v < m then v else m) 255

/-- The `let max = 0; if (v > max) max = v` scan of `autoContrast`. -/
def maxScan (l : List Nat) : Nat :=
  l.foldl (fun m v => if v > m then v else m) 0

/-- `const range = max - min || 1`. -/
def rangeScan (l : List Nat) : Nat :=
  if maxScan l - minScan l = 0 then 1 else maxScan l - minScan l

/-- JavaScript `Math.round (a / b)` for naturals with `b > 0`:
round half away from zero, i.e. `⌊a / b + 1 / 2⌋`. -/
def roundDiv (a b : Nat) : Nat := (2 * a + b) / (2 * b)

/-- `autoContrast` on the list of luminance values: the image is grayscale at
this stage, so one number per pixel captures all three channels. -/
def autoContrast (l : List Nat) : List Nat :=
  l.map (fun v => roundDiv ((v - minScan l) * 255) (rangeScan l))

/-- The `total` accumulation of `invertIfDarkBackground`. -/
def sumL (l : List Nat) : Nat := l.foldl (· + ·) 0

/-- `avgBrightness = total / pixelCount`, exact. -/
def avgBrightness (l : List Nat) : ℚ := (sumL l : ℚ) / (l.length : ℚ)

/-- `invertIfDarkBackground` (`imagePreprocess.ts`, lines 180–199) on the
list of luminance values. -/
def invertIfDarkBackground (l : List Nat) : List Nat :=
  if avgBrightness l < 128 then l.map (fun v => 255 - v) else l

/-- The `rowSum` accumulator of `adaptiveThreshold`: sum of the first `x`
pixels of row `y`. -/
def rowSumAcc (pix : Nat → Nat → Nat) (y : Nat) : Nat → Nat
  | 0 => 0
  | x + 1 => rowSumAcc pix y x + pix y x

/-- The integral image of `adaptiveThreshold` (`imagePreprocess.ts`,
lines 105–116): `integral[(y+1)*w1 + (x+1)] = rowSum + integral[y*w1 + (x+1)]`
with zero first row and first column. -/
def integralImg (pix : Nat → Nat → Nat) : Nat → Nat → Nat
  | 0, _ => 0
  | _ + 1, 0 => 0
  | y + 1, x + 1 => rowSumAcc pix y (x + 1) + integralImg pix y (x + 1)

/-- The four-corner window sum read off the integral image, in ℤ as the
float code computes it. -/
def windowSumI (pix : Nat → Nat → Nat) (x0 y0 x1 y1 : Nat) : ℤ :=
  (integralImg pix (y1 + 1) (x1 + 1) : ℤ) - integralImg pix y0 (x1 + 1)
    - integralImg pix (y1 + 1) x0 + integralImg pix y0 x0

/-- `adaptiveThreshold` (`imagePreprocess.ts`, lines 97–141): value of the
output pixel at row `y`, column `x`; `x - half` on naturals is
`Math.max(0, x - half)`. -/
def adaptiveThreshold (w h : Nat) (pix : Nat → Nat → Nat)
    (blockSize cst : Nat) (y x : Nat) : Nat :=
  let half := blockSize / 2
  let x0 := x - half
  let y0 := y - half
  let x1 := min (w - 1) (x + half)
  let y1 := min (h - 1) (y + half)
  let count : Nat := (x1 - x0 + 1) * (y1 - y0 + 1)
  let mean : ℚ := (windowSumI pix x0 y0 x1 y1 : ℚ) / (count : ℚ)
  if (pix y x : ℚ) < mean - (cst : ℚ) then 0 else 255

/-- `Math.max(0, Math.min(255, v))`. -/
def clamp255 (v : ℤ) : ℤ := max 0 (min 255 v)

/-- The flat sharpening kernel array of `sharpen`. -/
def kernelFlat : List ℤ := [0, -1, 0, -1, 5, -1, 0, -1, 0]

/-- The inner double loop of `sharpen`:
`sum += copy[idx] * kernel[(ky+1)*3 + (kx+1)]`, with `ky, kx` shifted from
`-1..1` to `0..2` (so the neighbor index is `y + ky - 1`, `x + kx - 1`);
`copy` is the unmodified input, so `pix` itself is read. -/
def convAcc (pix : Nat → Nat → Nat) (y x : Nat) : ℤ :=
  (List.range 3).foldl (fun acc ky =>
    (List.range 3).foldl (fun acc2 kx =>
      acc2 + (pix (y + ky - 1) (x + kx - 1) : ℤ) * kernelFlat.getD (ky * 3 + kx) 0) acc) 0

/-- `sharpen` (`imagePreprocess.ts`, lines 147–174): value of the output
pixel at row `y`, column `x`; the loops cover `1 ≤ y < h-1`, `1 ≤ x < w-1`
and all other pixels keep their input value. -/
def sharpen (w h : Nat) (pix : Nat → Nat → Nat) (y x : Nat) : Nat :=
  if 1 ≤ y ∧ y + 1 < h ∧ 1 ≤ x ∧ x + 1 < w then
    (clamp255 (convAcc pix y x)).toNat
  else pix y x

/-- Whether a token is the two-character word `NC` up to case, i.e. exactly
what `/\bNC\b/gi` can match. -/
def isNCtoken : List Char → Bool
  | [a, b] => isNchar a && isCchar b
  | _ => false

/-- The `CanonicalCircuitId` shape from the spec's data model: a possibly
empty alphanumeric run, a comma, a nonempty digit run, a dash, a nonempty
digit run, and nothing else. -/
def isCanonicalCircuitId (l : List Char) : Bool :=
  match l.dropWhile isAlnumChar with
  | ',' :: r =>
    let s := r.takeWhile isDigitChar
    if s.isEmpty then false else
    match r.dropWhile isDigitChar with
    | '-' :: r2 =>
      let e := r2.takeWhile isDigitChar
      !e.isEmpty && (r2.dropWhile isDigitChar).isEmpty
    | _ => false
  | _ => false

/-- Declarative comma-dash shape of the spec: an alphanumeric prefix, a
comma, digits, a dash, digits, anywhere in the line. -/
def hasCommaDashShape (l : List Char) : Prop :=
  ∃ u p s e v, l = u ++ (p ++ ',' :: (s ++ '-' :: e)) ++ v ∧
    p ≠ [] ∧ (∀ c ∈ p, isAlnumChar c = true) ∧
    s ≠ [] ∧ (∀ c ∈ s, isDigitChar c = true) ∧
    e ≠ [] ∧ (∀ c ∈ e, isDigitChar c = true)

/-- Declarative whitespace shape of the spec: an optional alphanumeric
prefix, whitespace, digits, whitespace, digits, anchored at the start. -/
def hasSpaceShape (t : List Char) : Prop :=
  ∃ p w1 s w2 e v, t = p ++ w1 ++ s ++ w2 ++ e ++ v ∧
    (∀ c ∈ p, isAlnumChar c = true) ∧
    w1 ≠ [] ∧ (∀ c ∈ w1, isSpaceChar c = true) ∧
    s ≠ [] ∧ (∀ c ∈ s, isDigitChar c = true) ∧
    w2 ≠ [] ∧ (∀ c ∈ w2, isSpaceChar c = true) ∧
    e ≠ [] ∧ (∀ c ∈ e, isDigitChar c = true)

/-- The sharpening kernel as the 3×3 matrix named by the spec. -/
def kernelMat : List (List ℤ) := [[0, -1, 0], [-1, 5, -1], [0, -1, 0]]

/-- Declarative local mean of `adaptiveThreshold`: the exact average of
luminance over the `blockSize × blockSize` window centered on `(y, x)`,
clipped at the image edges. -/
def localMeanQ (w h : Nat) (pix : Nat → Nat → Nat) (blockSize : Nat)
    (y x : Nat) : ℚ :=
  let half := blockSize / 2
  (∑ j ∈ Finset.Icc (y - half) (min (h - 1) (y + half)),
    ∑ i ∈ Finset.Icc (x - half) (min (w - 1) (x + half)), (pix j i : ℚ)) /
  (((Finset.Icc (y - half) (min (h - 1) (y + half))).card *
    (Finset.Icc (x - half) (min (w - 1) (x + half))).card : Nat) : ℚ)

/-! ### General lemmas about the auxiliary scanners -/

theorem dropThrough_length {stop : Char} :
    ∀ {l r : List Char}, dropThrough stop l = some r → r.length < l.length := by
  intro l
  induction l with
  | nil => intro r h; simp [dropThrough] at h
  | cons c cs ih =>
    intro r h
    by_cases hc : c = stop
    · simp [dropThrough, hc] at h
      simp [← h, List.length_cons]
    · simp [dropThrough, hc] at h
      have := ih h
      simp [List.length_cons]
      omega

theorem dropWhile_length_le (p : Char → Bool) :
    ∀ l : List Char, (l.dropWhile p).length ≤ l.length := by
  intro l
  induction l with
  | nil => simp [List.dropWhile]
  | cons c cs ih =>
    simp only [List.dropWhile]
    split
    · exact Nat.le_trans ih (Nat.le_succ _)
    · simp

theorem removeGroupF_fuel (op cl : Char) :
    ∀ (f1 : Nat) (l : List Char) (f2 : Nat), l.length ≤ f1 → l.length ≤ f2 →
      removeGroupF op cl f1 l = removeGroupF op cl f2 l := by
  intro f1
  induction f1 with
  | zero =>
    intro l f2 h1 _
    have : l = [] := List.length_eq_zero.mp (Nat.le_zero.mp h1)
    subst this
    cases f2 <;> rfl
  | succ f1' ih =>
    intro l f2 h1 h2
    cases l with
    | nil => cases f2 <;> rfl
    | cons c r =>
      cases f2 with
      | zero => simp at h2
      | succ f2' =>
        show (if c = op then
            match dropThrough cl r with
            | some after => removeGroupF op cl f1' after
            | none => c :: r
          else c :: removeGroupF op cl f1' r) =
          (if c = op then
            match dropThrough cl r with
            | some after => removeGroupF op cl f2' after
            | none => c :: r
          else c :: removeGroupF op cl f2' r)
        by_cases hc : c = op
        · simp only [if_pos hc]
          cases hdt : dropThrough cl r with
          | some after =>
            have := dropThrough_length hdt
            simp only [List.length_cons] at h1 h2
            exact ih after f2' (by omega) (by omega)
          | none => rfl
        · simp only [if_neg hc]
          simp only [List.length_cons] at h1 h2
          rw [ih r f2' (by omega) (by omega)]

theorem removeGroup_cons (op cl : Char) (c : Char) (r : List Char) :
    removeGroup op cl (c :: r) =
      if c = op then
        match dropThrough cl r with
        | some after => removeGroup op cl after
        | none => c :: r
      else c :: removeGroup op cl r := by
  show (if c = op then
      match dropThrough cl r with
      | some after => removeGroupF op cl r.length after
      | none => c :: r
    else c :: removeGroupF op cl r.length r) = _
  by_cases hc : c = op
  · simp only [if_pos hc]
    cases hdt : dropThrough cl r with
    | some after =>
      exact removeGroupF_fuel op cl r.length after after.length
        (Nat.le_of_lt (dropThrough_length hdt)) le_rfl
    | none => rfl
  · simp only [if_neg hc]
    rfl

theorem removeGroup_nil (op cl : Char) : removeGroup op cl [] = [] := rfl

theorem wsTokensF_fuel :
    ∀ (f1 : Nat) (l : List Char) (f2 : Nat), l.length ≤ f1 → l.length ≤ f2 →
      wsTokensF f1 l = wsTokensF f2 l := by
  intro f1
  induction f1 with
  | zero =>
    intro l f2 h1 _
    have : l = [] := List.length_eq_zero.mp (Nat.le_zero.mp h1)
    subst this
    cases f2 <;> rfl
  | succ f1' ih =>
    intro l f2 h1 h2
    cases l with
    | nil => cases f2 <;> rfl
    | cons c r =>
      cases f2 with
      | zero => simp at h2
      | succ f2' =>
        show (if isSpaceChar c then wsTokensF f1' r else
            (c :: r.takeWhile (fun d => !isSpaceChar d)) ::
              wsTokensF f1' (r.dropWhile (fun d => !isSpaceChar d))) =
          (if isSpaceChar c then wsTokensF f2' r else
            (c :: r.takeWhile (fun d => !isSpaceChar d)) ::
              wsTokensF f2' (r.dropWhile (fun d => !isSpaceChar d)))
        simp only [List.length_cons] at h1 h2
        by_cases hc : isSpaceChar c
        · simp only [if_pos hc]
          exact ih r f2' (by omega) (by omega)
        · simp only [if_neg hc]
          have hd := dropWhile_length_le (fun d => !isSpaceChar d) r
          rw [ih (r.dropWhile (fun d => !isSpaceChar d)) f2' (by omega) (by omega)]

theorem wsTokens_cons (c : Char) (r : List Char) :
    wsTokens (c :: r) =
      if isSpaceChar c then wsTokens r else
      (c :: r.takeWhile (fun d => !isSpaceChar d)) ::
        wsTokens (r.dropWhile (fun d => !isSpaceChar d)) := by
  show (if isSpaceChar c then wsTokensF r.length r else
      (c :: r.takeWhile (fun d => !isSpaceChar d)) ::
        wsTokensF r.length (r.dropWhile (fun d => !isSpaceChar d))) = _
  by_cases hc : isSpaceChar c
  · simp only [if_pos hc]
    rfl
  · simp only [if_neg hc]
    rw [wsTokensF_fuel r.length (r.dropWhile (fun d => !isSpaceChar d))
      (r.dropWhile (fun d => !isSpaceChar d)).length
      (dropWhile_length_le _ r) le_rfl]
    rfl

theorem wsTokens_nil : wsTokens [] = [] := rfl

/-! ### Splitting a run off a list -/

theorem run_split (p : Char → Bool) (xs ys : List Char)
    (hxs : ∀ c ∈ xs, p c = true)
    (hys : ∀ d, ys.head? = some d → p d = false) :
    (xs ++ ys).takeWhile p = xs ∧ (xs ++ ys).dropWhile p = ys := by
  induction xs with
  | nil =>
    cases ys with
    | nil => simp
    | cons d ds =>
      have hd := hys d rfl
      simp [List.takeWhile, List.dropWhile, hd]
  | cons c xs' ih =>
    have hc : p c = true := hxs c (by simp)
    have := ih (fun d hd => hxs d (by simp [hd]))
    simp [List.takeWhile, List.dropWhile, hc, this.1, this.2]

theorem takeWhile_all (p : Char → Bool) (xs : List Char)
    (hxs : ∀ c ∈ xs, p c = true) : xs.takeWhile p = xs := by
  have := run_split p xs [] hxs (by simp)
  simpa using this.1

theorem dropWhile_all (p : Char → Bool) (xs : List Char)
    (hxs : ∀ c ∈ xs, p c = true) : xs.dropWhile p = [] := by
  have := run_split p xs [] hxs (by simp)
  simpa using this.2

theorem dropWhile_eq_self (p : Char → Bool) (l : List Char)
    (h : ∀ d, l.head? = some d → p d = false) : l.dropWhile p = l := by
  have := run_split p [] l (by simp) h
  simpa using this.2

theorem takeWhile_eq_nil (p : Char → Bool) (l : List Char)
    (h : ∀ d, l.head? = some d → p d = false) : l.takeWhile p = [] := by
  have := run_split p [] l (by simp) h
  simpa using this.1

theorem trimL_eq_self (l : List Char)
    (h : ∀ c ∈ l, isSpaceChar c = false) : trimL l = l := by
  unfold trimL
  rw [dropWhile_eq_self _ _ (fun d hd => h d (List.mem_of_mem_head? hd)),
    dropWhile_eq_self _ _ (fun d hd => by
      exact h d (by simpa using List.mem_of_mem_head? hd)),
    List.reverse_reverse]

theorem splitNl_no_newline (l : List Char) (h : ('\n' : Char) ∉ l) :
    splitNl l = [l] := by
  induction l with
  | nil => rfl
  | cons c r ih =>
    have hc : c ≠ '\n' := by intro hc; exact h (by simp [hc])
    have hr := ih (by intro hr; exact h (by simp [hr]))
    simp only [splitNl, if_neg hc, hr]

/-! ### Tokenisation lemmas -/

theorem wsTokensF_mem :
    ∀ (fuel : Nat) (l : List Char), ∀ tok ∈ wsTokensF fuel l,
      tok ≠ [] ∧ ∀ c ∈ tok, isSpaceChar c = false := by
  intro fuel
  induction fuel with
  | zero => intro l tok htok; cases l <;> simp [wsTokensF] at htok
  | succ f ih =>
    intro l tok htok
    cases l with
    | nil => simp [wsTokensF] at htok
    | cons c r =>
      by_cases hc : isSpaceChar c
      · exact ih r tok (by simpa [wsTokensF, hc] using htok)
      · simp only [wsTokensF, if_neg hc, List.mem_cons] at htok
        rcases htok with h | h
        · subst h
          refine ⟨by simp, ?_⟩
          intro d hd
          rcases List.mem_cons.mp hd with h | h
          · subst h; simpa using hc
          · have := List.mem_takeWhile_imp h
            simpa using this
        · exact ih _ tok h

theorem wsTokens_mem (l : List Char) :
    ∀ tok ∈ wsTokens l, tok ≠ [] ∧ ∀ c ∈ tok, isSpaceChar c = false :=
  wsTokensF_mem l.length l

theorem wsTokens_no_space (l : List Char) (hne : l ≠ [])
    (h : ∀ c ∈ l, isSpaceChar c = false) : wsTokens l = [l] := by
  cases l with
  | nil => exact absurd rfl hne
  | cons c r =>
    rw [wsTokens_cons, if_neg (by simp [h c (by simp)])]
    rw [takeWhile_all _ _ (fun d hd => by simp [h d (by simp [hd])]),
      dropWhile_all _ _ (fun d hd => by simp [h d (by simp [hd])])]
    rfl

theorem getD_append_len (front tail : List (List Char)) (k : Nat) :
    (front ++ tail).getD (front.length + k) [] = tail.getD k [] := by
  induction front with
  | nil => simp
  | cons a fr ih =>
    have : fr.length + 1 + k = (fr.length + k) + 1 := by omega
    simp only [List.cons_append, List.length_cons, this, List.getD_cons_succ]
    exact ih

theorem exists_front_two {α : Type} (l : List α) (h : 2 ≤ l.length) :
    ∃ front s e, l = front ++ [s, e] ∧ front.length + 2 = l.length := by
  rcases l.eq_nil_or_concat with rfl | ⟨l', b, rfl⟩
  · simp at h
  rcases l'.eq_nil_or_concat with rfl | ⟨l'', a, rfl⟩
  · simp at h
  refine ⟨l'', a, b, by simp, by simp⟩

/-! ### Structure of `normalizeCircuitId` -/

theorem normalizeL_small (l : List Char)
    (h : (wsTokens (trimL l)).length < 3) : normalizeCircuitIdL l = l := by
  unfold normalizeCircuitIdL
  by_cases he : (trimL l).isEmpty
  · rw [if_pos he]
  · rw [if_neg he, if_pos h]

theorem normalizeL_build (l : List Char) (front : List (List Char))
    (s e : List Char) (hfr : front ≠ [])
    (hparts : wsTokens (trimL l) = front ++ [s, e]) :
    normalizeCircuitIdL l = front.flatten ++ ',' :: (s ++ '-' :: e) := by
  have hne : (trimL l).isEmpty = false := by
    cases htr : trimL l with
    | nil => rw [htr] at hparts; simp [wsTokens, wsTokensF] at hparts
    | cons c r => simp
  have hlen : (wsTokens (trimL l)).length = front.length + 2 := by
    simp [hparts]
  have hfl : 1 ≤ front.length := by
    cases front with
    | nil => exact absurd rfl hfr
    | cons a fr => simp
  unfold normalizeCircuitIdL
  rw [if_neg (by simp [hne]), if_neg (by omega), hparts]
  have hl : (front ++ [s, e]).length = front.length + 2 := by simp
  rw [hl]
  have e1 : front.length + 2 - 1 = front.length + 1 := by omega
  have e2 : front.length + 2 - 2 = front.length := by omega
  rw [e1, getD_append_len front [s, e] 1, e2,
    (by simpa using getD_append_len front [s, e] 0 :
      (front ++ [s, e]).getD front.length [] = [s, e].getD 0 []),
    List.take_left]
  rfl

/-! ### Claim C5 -/

/-- C5: for every input string, `normalizeCircuitId` trims it and splits it
on runs of whitespace; with fewer than 3 tokens it returns the input
unchanged; otherwise the last two tokens become start and end, in that
order, and all preceding tokens concatenate with no separator into the
prefix of the emitted `prefix,start-end`. -/
theorem c5_normalize_structure (input : String) :
    ((wsTokens (trimL input.data)).length < 3 →
      normalizeCircuitId input = input) ∧
    (3 ≤ (wsTokens (trimL input.data)).length →
      ∃ front s e, wsTokens (trimL input.data) = front ++ [s, e] ∧ front ≠ [] ∧
        (normalizeCircuitId input).data = front.flatten ++ ',' :: (s ++ '-' :: e)) ∧
    (∀ tok ∈ wsTokens (trimL input.data), tok ≠ [] ∧ ∀ c ∈ tok, isSpaceChar c = false) := by
  refine ⟨?_, ?_, wsTokens_mem _⟩
  · intro h
    show (⟨normalizeCircuitIdL input.data⟩ : String) = input
    rw [normalizeL_small _ h]
  · intro h3
    obtain ⟨front, s, e, hfe, hlen2⟩ :=
      exists_front_two (wsTokens (trimL input.data)) (by omega)
    have hfr : front ≠ [] := by
      intro hnil
      rw [hnil] at hlen2
      simp at hlen2
      omega
    exact ⟨front, s, e, hfe, hfr, normalizeL_build input.data front s e hfr hfe⟩

theorem c5_witness :
    3 ≤ (wsTokens (trimL ("BR 21 365 372").data)).length ∧
    ∃ front s e, wsTokens (trimL ("BR 21 365 372").data) = front ++ [s, e] ∧ front ≠ [] ∧
      (normalizeCircuitId "BR 21 365 372").data = front.flatten ++ ',' :: (s ++ '-' :: e) :=
  ⟨by decide, (c5_normalize_structure "BR 21 365 372").2.1 (by decide)⟩

/-! ### Claim C9 -/

/-- C9: `normalizeCircuitId` performs no numeric validation: whenever the
input splits into 3 or more tokens it emits `prefix,start-end` built from the
raw tokens, even when start and end are not digit strings, so the output is
not a well-formed canonical circuit id in general ("a b c" becomes "a,b-c"). -/
theorem c9_no_numeric_validation :
    (∀ (input : String) (front : List (List Char)) (s e : List Char),
        front ≠ [] → wsTokens (trimL input.data) = front ++ [s, e] →
        (normalizeCircuitId input).data = front.flatten ++ ',' :: (s ++ '-' :: e)) ∧
    normalizeCircuitId "a b c" = "a,b-c" ∧
    isCanonicalCircuitId ("a,b-c".data) = false := by
  refine ⟨?_, by decide, by decide⟩
  intro input front s e hfr hparts
  exact normalizeL_build input.data front s e hfr hparts

theorem c9_witness :
    ([['a']] : List (List Char)) ≠ [] ∧
    wsTokens (trimL ("a b c").data) = [['a']] ++ [['b'], ['c']] ∧
    (normalizeCircuitId "a b c").data =
      ([['a']] : List (List Char)).flatten ++ ',' :: (['b'] ++ '-' :: ['c']) :=
  ⟨by decide, by decide,
    (c9_no_numeric_validation).1 "a b c" [['a']] ['b'] ['c'] (by decide) (by decide)⟩

/-! ### Claim C10 -/

/-- C10 counterexample: the two `cleanOcrText` versions disagree on
`"B 101 150"` (the first drops the line, the second keeps it through the
whitespace-shape fallback). -/
theorem c10_counterexample :
    cleanOcrTextV1 "B 101 150" ≠ cleanOcrText "B 101 150" := by decide

theorem cleanLineV1_eq_V2 (line : List Char)
    (h : commaDashFind (noiseClean line) = none →
         spaceShapeFind (trimL (noiseClean line)) = none) :
    cleanLineV1 line = cleanLineV2 line := by
  by_cases ht : (trimL line).isEmpty
  · simp [cleanLineV1, cleanLineV2, ht]
  · cases hcd : commaDashFind (noiseClean line) with
    | some g => simp [cleanLineV1, cleanLineV2, if_neg ht, hcd]
    | none => simp [cleanLineV1, cleanLineV2, if_neg ht, hcd, h hcd]

/-- C10 amended: the two versions return equal outputs on every input none
of whose lines takes the second version's whitespace-shape fallback, i.e.
whenever every line that fails the comma-dash match also fails the
whitespace-shape match; on fallback lines (such as `"B 101 150"`) the
outputs differ. -/
theorem c10_amended (s : String)
    (h : ∀ line ∈ splitNl s.data,
          commaDashFind (noiseClean line) = none →
          spaceShapeFind (trimL (noiseClean line)) = none) :
    cleanOcrTextV1 s = cleanOcrText s := by
  show (⟨cleanOcrTextV1L s.data⟩ : String) = ⟨cleanOcrTextV2L s.data⟩
  have hmap : (splitNl s.data).map cleanLineV1 = (splitNl s.data).map cleanLineV2 :=
    List.map_congr_left (fun line hline => cleanLineV1_eq_V2 line (h line hline))
  unfold cleanOcrTextV1L cleanOcrTextV2L
  rw [hmap]

theorem c10_witness :
    (∀ line ∈ splitNl ("a,1-2").data,
        commaDashFind (noiseClean line) = none →
        spaceShapeFind (trimL (noiseClean line)) = none) ∧
    cleanOcrTextV1 "a,1-2" = cleanOcrText "a,1-2" :=
  ⟨by decide, c10_amended _ (by decide)⟩

/-! ### Min/max scan lemmas for `autoContrast` -/

theorem foldl_min_spec (l : List Nat) : ∀ (a : Nat),
    (l.foldl (fun m v => if v < m then v else m) a = a ∨
      l.foldl (fun m v => if v < m then v else m) a ∈ l) ∧
    l.foldl (fun m v => if v < m then v else m) a ≤ a ∧
    ∀ v ∈ l, l.foldl (fun m v => if v < m then v else m) a ≤ v := by
  induction l with
  | nil => intro a; exact ⟨Or.inl rfl, le_rfl, by simp⟩
  | cons v l ih =>
    intro a
    obtain ⟨hmem, hle, hall⟩ := ih (if v < a then v else a)
    have hfa : (if v < a then v else a) ≤ a := by split <;> omega
    have hfv : (if v < a then v else a) ≤ v := by split <;> omega
    refine ⟨?_, ?_, ?_⟩
    · rcases hmem with h | h
      · by_cases hv : v < a
        · right
          rw [List.foldl_cons, h, if_pos hv]
          simp
        · left
          rw [List.foldl_cons, h, if_neg hv]
      · right
        exact List.mem_cons_of_mem _ h
    · exact Nat.le_trans hle hfa
    · intro u hu
      rcases List.mem_cons.mp hu with h | h
      · subst h; exact Nat.le_trans hle hfv
      · exact hall u h

theorem foldl_max_spec (l : List Nat) : ∀ (a : Nat),
    (l.foldl (fun m v => if v > m then v else m) a = a ∨
      l.foldl (fun m v => if v > m then v else m) a ∈ l) ∧
    a ≤ l.foldl (fun m v => if v > m then v else m) a ∧
    ∀ v ∈ l, v ≤ l.foldl (fun m v => if v > m then v else m) a := by
  induction l with
  | nil => intro a; exact ⟨Or.inl rfl, le_rfl, by simp⟩
  | cons v l ih =>
    intro a
    obtain ⟨hmem, hle, hall⟩ := ih (if v > a then v else a)
    have hfa : a ≤ (if v > a then v else a) := by split <;> omega
    have hfv : v ≤ (if v > a then v else a) := by split <;> omega
    refine ⟨?_, ?_, ?_⟩
    · rcases hmem with h | h
      · by_cases hv : v > a
        · right
          rw [List.foldl_cons, h, if_pos hv]
          simp
        · left
          rw [List.foldl_cons, h, if_neg hv]
      · right
        exact List.mem_cons_of_mem _ h
    · exact Nat.le_trans hfa hle
    · intro u hu
      rcases List.mem_cons.mp hu with h | h
      · subst h; exact Nat.le_trans hfv hle
      · exact hall u h

theorem minScan_le (l : List Nat) : ∀ v ∈ l, minScan l ≤ v :=
  (foldl_min_spec l 255).2.2

theorem maxScan_ge (l : List Nat) : ∀ v ∈ l, v ≤ maxScan l :=
  (foldl_max_spec l 0).2.2

theorem minScan_mem (l : List Nat) (hne : l ≠ []) (hb : ∀ v ∈ l, v ≤ 255) :
    minScan l ∈ l := by
  rcases (foldl_min_spec l 255).1 with h | h
  · cases l with
    | nil => exact absurd rfl hne
    | cons v r =>
      have h1 := minScan_le (v :: r) v (by simp)
      have h2 := hb v (by simp)
      have h' : minScan (v :: r) = 255 := h
      have : v = 255 := by omega
      show minScan (v :: r) ∈ v :: r
      rw [show minScan (v :: r) = 255 from h, ← this]
      simp
  · exact h

theorem maxScan_mem (l : List Nat) (hne : l ≠ []) : maxScan l ∈ l := by
  rcases (foldl_max_spec l 0).1 with h | h
  · cases l with
    | nil => exact absurd rfl hne
    | cons v r =>
      have h1 := maxScan_ge (v :: r) v (by simp)
      have h' : maxScan (v :: r) = 0 := h
      have : v = 0 := by omega
      show maxScan (v :: r) ∈ v :: r
      rw [show maxScan (v :: r) = 0 from h, ← this]
      simp
  · exact h

theorem minScan_le_maxScan (l : List Nat) (hne : l ≠ [])
    (hb : ∀ v ∈ l, v ≤ 255) : minScan l ≤ maxScan l := by
  cases l with
  | nil => exact absurd rfl hne
  | cons v r =>
    exact Nat.le_trans (minScan_le (v :: r) v (by simp)) (maxScan_ge (v :: r) v (by simp))

/-! ### Rounding lemmas -/

theorem roundDiv_eq_floor (a b : Nat) (hb : 0 < b) :
    roundDiv a b = ⌊(a : ℚ) / b + 1/2⌋₊ := by
  have hbq : ((b : ℚ)) ≠ 0 := Nat.cast_ne_zero.mpr hb.ne'
  have h1 : (a : ℚ) / b + 1/2 = ((2 * a + b : ℕ) : ℚ) / ((2 * b : ℕ) : ℚ) := by
    push_cast
    field_simp
    ring
  rw [h1, Nat.floor_div_nat, Nat.floor_natCast, roundDiv]

theorem roundDiv_zero_left (b : Nat) (hb : 0 < b) : roundDiv 0 b = 0 := by
  unfold roundDiv
  exact Nat.div_eq_of_lt (by omega)

theorem roundDiv_le_roundDiv (a1 a2 b : Nat) (h : a1 ≤ a2) :
    roundDiv a1 b ≤ roundDiv a2 b :=
  Nat.div_le_div_right (by omega)

theorem roundDiv_full (r : Nat) (hr : 0 < r) : roundDiv (r * 255) r = 255 := by
  unfold roundDiv
  have h : 2 * (r * 255) + r = r + (2 * r) * 255 := by ring
  rw [h, Nat.add_mul_div_left _ _ (by omega : 0 < 2 * r),
    Nat.div_eq_of_lt (by omega)]

/-! ### Claim C1 -/

/-- C1 counterexample: a flat image of luminance 100 has equal observed min
and max, but `autoContrast` maps it to all zeros instead of leaving it
unchanged — the divisor-1 guard does not make the stage a no-op. -/
theorem c1_counterexample :
    minScan [100] = maxScan [100] ∧ autoContrast [100] ≠ [100] := by decide

/-- C1 amended: on a non-flat image `autoContrast` remaps each luminance
linearly (with round-half-up) so the observed minimum maps to 0 and the
observed maximum to 255, and the output's observed min and max are 0 and
255; on a perfectly flat image (min = max) the divisor-1 guard yields
`(v - min) * 255 / 1 = 0`, so every pixel becomes 0 — a no-op only when the
flat value is 0, not in general. -/
theorem c1_amended (l : List Nat) (hne : l ≠ []) (hb : ∀ v ∈ l, v ≤ 255) :
    (minScan l = maxScan l → autoContrast l = l.map (fun _ => 0)) ∧
    (minScan l ≠ maxScan l →
      autoContrast l = l.map (fun (v : Nat) =>
        ⌊(((v : ℚ) - (minScan l : ℚ)) / ((maxScan l : ℚ) - (minScan l : ℚ))) * 255 + 1/2⌋₊) ∧
      (0 : Nat) ∈ autoContrast l ∧ (255 : Nat) ∈ autoContrast l ∧
      ∀ v ∈ autoContrast l, v ≤ 255) := by
  constructor
  · intro hflat
    unfold autoContrast
    apply List.map_congr_left
    intro v hv
    have h1 := minScan_le l v hv
    have h2 := maxScan_ge l v hv
    have hv0 : v - minScan l = 0 := by omega
    rw [hv0]
    simp only [Nat.zero_mul]
    unfold rangeScan
    rw [if_pos (by omega)]
    exact roundDiv_zero_left 1 (by omega)
  · intro hne'
    have hminmax := minScan_le_maxScan l hne hb
    have hrange : rangeScan l = maxScan l - minScan l := by
      unfold rangeScan
      rw [if_neg (by omega)]
    have hrpos : 0 < maxScan l - minScan l := by omega
    refine ⟨?_, ?_, ?_, ?_⟩
    · unfold autoContrast
      apply List.map_congr_left
      intro v hv
      have h1 := minScan_le l v hv
      rw [hrange, roundDiv_eq_floor _ _ hrpos]
      congr 1
      push_cast [h1, hminmax]
      have : ((maxScan l : ℚ) - (minScan l : ℚ)) ≠ 0 := by
        have : (minScan l : ℚ) < (maxScan l : ℚ) := by
          exact_mod_cast Nat.lt_of_le_of_ne hminmax hne'
        linarith
      field_simp
    · refine List.mem_map.mpr ⟨minScan l, minScan_mem l hne hb, ?_⟩
      rw [Nat.sub_self, Nat.zero_mul, hrange]
      exact roundDiv_zero_left _ hrpos
    · refine List.mem_map.mpr ⟨maxScan l, maxScan_mem l hne, ?_⟩
      rw [hrange]
      exact roundDiv_full _ hrpos
    · intro v hv
      obtain ⟨u, hu, rfl⟩ := List.mem_map.mp hv
      have h2 := maxScan_ge l u hu
      calc roundDiv ((u - minScan l) * 255) (rangeScan l)
          ≤ roundDiv ((maxScan l - minScan l) * 255) (rangeScan l) :=
            roundDiv_le_roundDiv _ _ _ (by
              have : u - minScan l ≤ maxScan l - minScan l := by omega
              exact Nat.mul_le_mul_right _ this)
        _ = 255 := by rw [hrange]; exact roundDiv_full _ hrpos

theorem c1_witness :
    ([10, 20, 250] : List Nat) ≠ [] ∧ (∀ v ∈ ([10, 20, 250] : List Nat), v ≤ 255) ∧
    ((minScan [10, 20, 250] = maxScan [10, 20, 250] →
      autoContrast [10, 20, 250] = ([10, 20, 250] : List Nat).map (fun _ => 0)) ∧
    (minScan [10, 20, 250] ≠ maxScan [10, 20, 250] →
      autoContrast [10, 20, 250] = ([10, 20, 250] : List Nat).map (fun (v : Nat) =>
        ⌊(((v : ℚ) - (minScan [10, 20, 250] : ℚ)) /
          ((maxScan [10, 20, 250] : ℚ) - (minScan [10, 20, 250] : ℚ))) * 255 + 1/2⌋₊) ∧
      (0 : Nat) ∈ autoContrast [10, 20, 250] ∧ (255 : Nat) ∈ autoContrast [10, 20, 250] ∧
      ∀ v ∈ autoContrast [10, 20, 250], v ≤ 255)) :=
  ⟨by decide, by decide, c1_amended [10, 20, 250] (by decide) (by decide)⟩

/-! ### Claim C2 -/

theorem sumL_eq_sum (l : List Nat) : sumL l = l.sum := by
  have key : ∀ (l : List Nat) (a : Nat), l.foldl (· + ·) a = a + l.sum := by
    intro l
    induction l with
    | nil => intro a; simp
    | cons v r ih =>
      intro a
      rw [List.foldl_cons, ih (a + v), List.sum_cons]
      omega
  simpa using key l 0

theorem sumL_invert (l : List Nat) (hb : ∀ v ∈ l, v ≤ 255) :
    sumL (l.map (fun v => 255 - v)) + sumL l = 255 * l.length := by
  rw [sumL_eq_sum, sumL_eq_sum]
  induction l with
  | nil => simp
  | cons v r ih =>
    have hv := hb v (by simp)
    have ihr := ih (fun u hu => hb u (by simp [hu]))
    simp only [List.map_cons, List.sum_cons, List.length_cons]
    omega

theorem avg_invert (l : List Nat) (hne : l ≠ []) (hb : ∀ v ∈ l, v ≤ 255) :
    avgBrightness (l.map (fun v => 255 - v)) = 255 - avgBrightness l := by
  have hlen : ((l.length : ℚ)) ≠ 0 :=
    Nat.cast_ne_zero.mpr (fun h => hne (List.length_eq_zero.mp h))
  have hsum : ((sumL (l.map (fun v => 255 - v)) : ℚ)) =
      255 * (l.length : ℚ) - (sumL l : ℚ) := by
    have h0 := sumL_invert l hb
    have hcast : ((sumL (l.map (fun v => 255 - v)) : ℚ)) + (sumL l : ℚ) =
        255 * (l.length : ℚ) := by exact_mod_cast h0
    linarith
  unfold avgBrightness
  rw [List.length_map, hsum]
  field_simp

/-- C2 counterexample: the image `[127, 128, 128, 128]` has mean luminance
127.75 < 128, so polarity correction inverts it, but the inverted image has
the strictly smaller mean 127.25; moreover that mean is still below 128, so
a second application inverts again, contradicting both halves of the claim. -/
theorem c2_counterexample :
    avgBrightness [127, 128, 128, 128] < 128 ∧
    avgBrightness (invertIfDarkBackground [127, 128, 128, 128]) <
      avgBrightness [127, 128, 128, 128] ∧
    invertIfDarkBackground (invertIfDarkBackground [127, 128, 128, 128]) ≠
      invertIfDarkBackground [127, 128, 128, 128] := by
  refine ⟨by norm_num [avgBrightness, sumL], ?_, ?_⟩
  · norm_num [avgBrightness, sumL, invertIfDarkBackground]
  · norm_num [invertIfDarkBackground, avgBrightness, sumL]

/-- C2 amended: when the mean luminance is below 128, polarity correction
inverts every pixel and the new mean is exactly `255 - mean`, which is not
below the old mean precisely when the old mean is at most 127.5 (for means
in (127.5, 128) the corrected mean is strictly smaller); when the mean is at
least 128 the image is unchanged; and a second application performs no
further inversion provided the pre-correction mean is at most 127 (so that
the corrected mean reaches at least 128). -/
theorem c2_amended (l : List Nat) (hne : l ≠ []) (hb : ∀ v ∈ l, v ≤ 255) :
    (avgBrightness l < 128 →
      avgBrightness (invertIfDarkBackground l) = 255 - avgBrightness l) ∧
    (avgBrightness l < 128 → avgBrightness l ≤ 255/2 →
      avgBrightness l ≤ avgBrightness (invertIfDarkBackground l)) ∧
    (128 ≤ avgBrightness l → invertIfDarkBackground l = l) ∧
    (avgBrightness l ≤ 127 →
      invertIfDarkBackground (invertIfDarkBackground l) = invertIfDarkBackground l) := by
  have hflip : avgBrightness l < 128 →
      avgBrightness (invertIfDarkBackground l) = 255 - avgBrightness l := by
    intro h
    unfold invertIfDarkBackground
    rw [if_pos h]
    exact avg_invert l hne hb
  refine ⟨hflip, ?_, ?_, ?_⟩
  · intro h hhalf
    rw [hflip h]
    linarith
  · intro h
    unfold invertIfDarkBackground
    rw [if_neg (not_lt.mpr h)]
  · intro h127
    have h : avgBrightness l < 128 := lt_of_le_of_lt h127 (by norm_num)
    have h2 := hflip h
    conv in invertIfDarkBackground (invertIfDarkBackground l) =>
      rw [invertIfDarkBackground]
    rw [if_neg (by rw [h2]; push_neg; linarith)]

theorem c2_witness :
    ([0, 100] : List Nat) ≠ [] ∧ (∀ v ∈ ([0, 100] : List Nat), v ≤ 255) ∧
    ((avgBrightness [0, 100] < 128 →
      avgBrightness (invertIfDarkBackground [0, 100]) = 255 - avgBrightness [0, 100]) ∧
    (avgBrightness [0, 100] < 128 → avgBrightness [0, 100] ≤ 255/2 →
      avgBrightness [0, 100] ≤ avgBrightness (invertIfDarkBackground [0, 100])) ∧
    (128 ≤ avgBrightness [0, 100] → invertIfDarkBackground [0, 100] = [0, 100]) ∧
    (avgBrightness [0, 100] ≤ 127 →
      invertIfDarkBackground (invertIfDarkBackground [0, 100]) =
        invertIfDarkBackground [0, 100])) :=
  ⟨by decide, by decide, c2_amended [0, 100] (by decide) (by decide)⟩

/-! ### Claim C8 -/

theorem convAcc_eq_kernelMat (pix : Nat → Nat → Nat) (y x : Nat) :
    convAcc pix y x =
      ∑ ky ∈ Finset.range 3, ∑ kx ∈ Finset.range 3,
        ((kernelMat.getD ky []).getD kx 0) * (pix (y + ky - 1) (x + kx - 1) : ℤ) := by
  simp only [convAcc, show List.range 3 = [0, 1, 2] from rfl, List.foldl_cons,
    List.foldl_nil, kernelFlat, kernelMat, Finset.sum_range_succ,
    Finset.sum_range_zero]
  norm_num [List.getD]
  ring

/-- C8: every non-border output pixel of `sharpen` is the 3×3 convolution
with kernel `[[0,-1,0],[-1,5,-1],[0,-1,0]]` of the pre-sharpen pixel values,
clamped to `[0, 255]`; every pixel of the outermost one-pixel border ring is
left unchanged. -/
theorem c8_sharpen (w h : Nat) (pix : Nat → Nat → Nat) (y x : Nat) :
    (1 ≤ y → y + 1 < h → 1 ≤ x → x + 1 < w →
      sharpen w h pix y x =
        (clamp255 (∑ ky ∈ Finset.range 3, ∑ kx ∈ Finset.range 3,
          ((kernelMat.getD ky []).getD kx 0) * (pix (y + ky - 1) (x + kx - 1) : ℤ))).toNat ∧
      sharpen w h pix y x ≤ 255) ∧
    (¬(1 ≤ y ∧ y + 1 < h ∧ 1 ≤ x ∧ x + 1 < w) → sharpen w h pix y x = pix y x) := by
  constructor
  · intro hy1 hy2 hx1 hx2
    have hpos : 1 ≤ y ∧ y + 1 < h ∧ 1 ≤ x ∧ x + 1 < w := ⟨hy1, hy2, hx1, hx2⟩
    constructor
    · unfold sharpen
      rw [if_pos hpos, convAcc_eq_kernelMat]
    · unfold sharpen
      rw [if_pos hpos]
      unfold clamp255
      omega
  · intro hneg
    unfold sharpen
    rw [if_neg hneg]

theorem c8_witness :
    sharpen 3 3 (fun i j => i * 10 + j) 1 1 =
      (clamp255 (∑ ky ∈ Finset.range 3, ∑ kx ∈ Finset.range 3,
        ((kernelMat.getD ky []).getD kx 0) *
          ((fun (i j : Nat) => i * 10 + j) (1 + ky - 1) (1 + kx - 1) : ℤ))).toNat ∧
    sharpen 3 3 (fun i j => i * 10 + j) 1 1 ≤ 255 :=
  (c8_sharpen 3 3 (fun i j => i * 10 + j) 1 1).1
    (by decide) (by decide) (by decide) (by decide)

/-! ### Claim C7 -/

theorem rowSumAcc_eq (pix : Nat → Nat → Nat) (y : Nat) :
    ∀ x, rowSumAcc pix y x = ∑ i ∈ Finset.range x, pix y i := by
  intro x
  induction x with
  | zero => simp [rowSumAcc]
  | succ n ih => simp [rowSumAcc, Finset.sum_range_succ, ih]

theorem integralImg_eq (pix : Nat → Nat → Nat) :
    ∀ y x, integralImg pix y x =
      ∑ j ∈ Finset.range y, ∑ i ∈ Finset.range x, pix j i := by
  intro y
  induction y with
  | zero => intro x; simp [integralImg]
  | succ n ih =>
    intro x
    cases x with
    | zero => simp [integralImg]
    | succ m =>
      show rowSumAcc pix n (m + 1) + integralImg pix n (m + 1) = _
      rw [rowSumAcc_eq, ih,
        Finset.sum_range_succ (fun j => ∑ i ∈ Finset.range (m + 1), pix j i) n]
      omega

theorem sum_Icc_sub (f : Nat → ℤ) (a b : Nat) (hab : a ≤ b + 1) :
    ∑ i ∈ Finset.Icc a b, f i =
      (∑ i ∈ Finset.range (b + 1), f i) - ∑ i ∈ Finset.range a, f i := by
  rw [← Nat.Ico_succ_right, Finset.sum_Ico_eq_sub f hab]

theorem windowSumI_eq (pix : Nat → Nat → Nat) (x0 y0 x1 y1 : Nat)
    (hx : x0 ≤ x1 + 1) (hy : y0 ≤ y1 + 1) :
    windowSumI pix x0 y0 x1 y1 =
      ∑ j ∈ Finset.Icc y0 y1, ∑ i ∈ Finset.Icc x0 x1, (pix j i : ℤ) := by
  have hrow : ∀ j, ∑ i ∈ Finset.Icc x0 x1, (pix j i : ℤ) =
      (∑ i ∈ Finset.range (x1 + 1), (pix j i : ℤ)) -
        ∑ i ∈ Finset.range x0, (pix j i : ℤ) := fun j =>
    sum_Icc_sub (fun i => (pix j i : ℤ)) x0 x1 hx
  have hcol := sum_Icc_sub
    (fun j => (∑ i ∈ Finset.range (x1 + 1), (pix j i : ℤ)) -
      ∑ i ∈ Finset.range x0, (pix j i : ℤ)) y0 y1 hy
  calc windowSumI pix x0 y0 x1 y1
      = (integralImg pix (y1 + 1) (x1 + 1) : ℤ) - integralImg pix y0 (x1 + 1)
          - integralImg pix (y1 + 1) x0 + integralImg pix y0 x0 := rfl
    _ = ∑ j ∈ Finset.Icc y0 y1, ∑ i ∈ Finset.Icc x0 x1, (pix j i : ℤ) := by
        rw [integralImg_eq, integralImg_eq, integralImg_eq, integralImg_eq]
        rw [Finset.sum_congr rfl (fun j _ => hrow j), hcol]
        push_cast
        rw [Finset.sum_sub_distrib, Finset.sum_sub_distrib]
        ring

/-- C7: with an odd block size, the adaptive-threshold output pixel is black
(0) precisely when its luminance is strictly below the exact average of
luminance over the `blockSize × blockSize` window centered on it and clipped
at the image edges, minus the configured constant, and white (255) otherwise;
the clipped window never exceeds `blockSize` pixels per side. -/
theorem c7_adaptive_threshold (w h blockSize cst : Nat) (pix : Nat → Nat → Nat)
    (y x : Nat) (hx : x < w) (hy : y < h) (hodd : blockSize % 2 = 1) :
    (adaptiveThreshold w h pix blockSize cst y x = 0 ↔
      (pix y x : ℚ) < localMeanQ w h pix blockSize y x - (cst : ℚ)) ∧
    (adaptiveThreshold w h pix blockSize cst y x = 255 ↔
      ¬((pix y x : ℚ) < localMeanQ w h pix blockSize y x - (cst : ℚ))) ∧
    (Finset.Icc (x - blockSize / 2) (min (w - 1) (x + blockSize / 2))).card ≤ blockSize ∧
    (Finset.Icc (y - blockSize / 2) (min (h - 1) (y + blockSize / 2))).card ≤ blockSize := by
  have hws := windowSumI_eq pix (x - blockSize / 2) (y - blockSize / 2)
    (min (w - 1) (x + blockSize / 2)) (min (h - 1) (y + blockSize / 2))
    (by omega) (by omega)
  have hcard : ((min (w - 1) (x + blockSize / 2)) - (x - blockSize / 2) + 1) *
      ((min (h - 1) (y + blockSize / 2)) - (y - blockSize / 2) + 1) =
      (Finset.Icc (y - blockSize / 2) (min (h - 1) (y + blockSize / 2))).card *
        (Finset.Icc (x - blockSize / 2) (min (w - 1) (x + blockSize / 2))).card := by
    have h1 : min (w - 1) (x + blockSize / 2) - (x - blockSize / 2) + 1 =
        min (w - 1) (x + blockSize / 2) + 1 - (x - blockSize / 2) := by omega
    have h2 : min (h - 1) (y + blockSize / 2) - (y - blockSize / 2) + 1 =
        min (h - 1) (y + blockSize / 2) + 1 - (y - blockSize / 2) := by omega
    rw [Nat.card_Icc, Nat.card_Icc, h1, h2]
    exact Nat.mul_comm _ _
  have key : adaptiveThreshold w h pix blockSize cst y x =
      if (pix y x : ℚ) < localMeanQ w h pix blockSize y x - (cst : ℚ)
        then 0 else 255 := by
    show (if (pix y x : ℚ) <
        (windowSumI pix (x - blockSize / 2) (y - blockSize / 2)
          (min (w - 1) (x + blockSize / 2)) (min (h - 1) (y + blockSize / 2)) : ℚ) /
        (((min (w - 1) (x + blockSize / 2)) - (x - blockSize / 2) + 1) *
          ((min (h - 1) (y + blockSize / 2)) - (y - blockSize / 2) + 1) : ℕ) -
        (cst : ℚ) then 0 else 255) = _
    rw [hws, hcard]
    show (if (pix y x : ℚ) <
        ((∑ j ∈ Finset.Icc (y - blockSize / 2) (min (h - 1) (y + blockSize / 2)),
          ∑ i ∈ Finset.Icc (x - blockSize / 2) (min (w - 1) (x + blockSize / 2)),
            (pix j i : ℤ) : ℤ) : ℚ) / _ - (cst : ℚ) then 0 else 255) = _
    unfold localMeanQ
    push_cast
    rfl
  refine ⟨?_, ?_, ?_, ?_⟩
  · by_cases hc : (pix y x : ℚ) < localMeanQ w h pix blockSize y x - (cst : ℚ)
    · rw [key, if_pos hc]; simp [hc]
    · rw [key, if_neg hc]; simp [hc]
  · by_cases hc : (pix y x : ℚ) < localMeanQ w h pix blockSize y x - (cst : ℚ)
    · rw [key, if_pos hc]; simp [hc]
    · rw [key, if_neg hc]; simp [hc]
  · rw [Nat.card_Icc]; omega
  · rw [Nat.card_Icc]; omega

theorem c7_witness :
    (adaptiveThreshold 3 3 (fun i j => i * 10 + j) 3 1 1 1 = 0 ↔
      ((fun (i j : Nat) => i * 10 + j) 1 1 : ℚ) <
        localMeanQ 3 3 (fun i j => i * 10 + j) 3 1 1 - (1 : ℚ)) ∧
    (adaptiveThreshold 3 3 (fun i j => i * 10 + j) 3 1 1 1 = 255 ↔
      ¬(((fun (i j : Nat) => i * 10 + j) 1 1 : ℚ) <
        localMeanQ 3 3 (fun i j => i * 10 + j) 3 1 1 - (1 : ℚ))) ∧
    (Finset.Icc (1 - 3 / 2) (min (3 - 1) (1 + 3 / 2))).card ≤ 3 ∧
    (Finset.Icc (1 - 3 / 2) (min (3 - 1) (1 + 3 / 2))).card ≤ 3 :=
  c7_adaptive_threshold 3 3 3 1 (fun i j => i * 10 + j) 1 1
    (by decide) (by decide) (by decide)

/-! ### Character class facts -/

theorem isNchar_cases {c : Char} (h : isNchar c = true) : c = 'N' ∨ c = 'n' := by
  simpa [isNchar] using h

theorem isCchar_cases {c : Char} (h : isCchar c = true) : c = 'C' ∨ c = 'c' := by
  simpa [isCchar] using h

theorem isNchar_word {c : Char} (h : isNchar c = true) : isWordChar c = true := by
  rcases isNchar_cases h with rfl | rfl <;> decide

theorem isCchar_word {c : Char} (h : isCchar c = true) : isWordChar c = true := by
  rcases isCchar_cases h with rfl | rfl <;> decide

theorem isCchar_not_N {c : Char} (h : isNchar c = true) : isCchar c = false := by
  rcases isNchar_cases h with rfl | rfl <;> decide

theorem digit_alnum {c : Char} (h : isDigitChar c = true) : isAlnumChar c = true := by
  simp only [isDigitChar, Bool.and_eq_true] at h
  simp [isAlnumChar, h.1, h.2]

theorem alnum_word {c : Char} (h : isAlnumChar c = true) : isWordChar c = true := by
  simp [isWordChar, h]

theorem digit_not_N {c : Char} (h : isDigitChar c = true) : isNchar c = false := by
  cases hN : isNchar c
  · rfl
  · rcases isNchar_cases hN with rfl | rfl <;> exact absurd h (by decide)

theorem alnum_not_space {c : Char} (h : isAlnumChar c = true) :
    isSpaceChar c = false := by
  cases hs : isSpaceChar c
  · rfl
  · exfalso
    have h6 : c = ' ' ∨ c = '\t' ∨ c = '\n' ∨ c = '\r' ∨ c = '\x0b' ∨ c = '\x0c' := by
      simp [isSpaceChar] at hs
      tauto
    rcases h6 with rfl | rfl | rfl | rfl | rfl | rfl <;> exact absurd h (by decide)

theorem digit_not_space {c : Char} (h : isDigitChar c = true) :
    isSpaceChar c = false := alnum_not_space (digit_alnum h)

/-! ### `dropThrough` and `removeGroup` behaviour -/

theorem dropThrough_none (stop : Char) (l : List Char) (h : stop ∉ l) :
    dropThrough stop l = none := by
  induction l with
  | nil => rfl
  | cons c r ih =>
    have hc : c ≠ stop := fun hc => h (by simp [hc])
    simp only [dropThrough, if_neg hc]
    exact ih (fun hr => h (by simp [hr]))

theorem dropThrough_append (stop : Char) (v w : List Char) (hv : stop ∉ v) :
    dropThrough stop (v ++ stop :: w) = some w := by
  induction v with
  | nil => simp [dropThrough]
  | cons c r ih =>
    have hc : c ≠ stop := fun hc => hv (by simp [hc])
    simp only [List.cons_append, dropThrough, if_neg hc]
    exact ih (fun hr => hv (by simp [hr]))

theorem removeGroup_no_close (op cl : Char) (l : List Char) (h : cl ∉ l) :
    removeGroup op cl l = l := by
  induction l with
  | nil => rfl
  | cons c r ih =>
    rw [removeGroup_cons]
    by_cases hc : c = op
    · rw [if_pos hc, dropThrough_none cl r (fun hr => h (by simp [hr]))]
    · rw [if_neg hc, ih (fun hr => h (by simp [hr]))]

theorem removeGroup_removes (op cl : Char) (u v w : List Char)
    (hu : op ∉ u) (hv : cl ∉ v) :
    removeGroup op cl (u ++ op :: (v ++ cl :: w)) = u ++ removeGroup op cl w := by
  induction u with
  | nil =>
    simp only [List.nil_append]
    rw [removeGroup_cons, if_pos rfl, dropThrough_append cl v w hv]
  | cons c u' ih =>
    have hc : c ≠ op := fun hc => hu (by simp [hc])
    simp only [List.cons_append]
    rw [removeGroup_cons, if_neg hc, ih (fun hr => hu (by simp [hr]))]

/-! ### `removeNC` behaviour -/

theorem removeNC_match (a b : Char) (r : List Char) (ha : isNchar a = true)
    (hb : isCchar b = true) (hr : boundaryNext r = true) :
    removeNC false (a :: b :: r) = removeNC true r := by
  simp [removeNC, ha, hb, hr]

theorem removeNC_cons_nonN (pr : Bool) (a : Char) (t : List Char)
    (ha : isNchar a = false) :
    removeNC pr (a :: t) = a :: removeNC (isWordChar a) t := by
  cases t with
  | nil => simp [removeNC]
  | cons b t' => simp [removeNC, ha]

theorem removeNC_cons_prev_word (a : Char) (t : List Char) :
    removeNC true (a :: t) = a :: removeNC (isWordChar a) t := by
  cases t with
  | nil => simp [removeNC]
  | cons b t' => simp [removeNC]

theorem removeNC_word_run (u : List Char) (hw : ∀ c ∈ u, isWordChar c = true) :
    ∀ r, removeNC true (u ++ r) = u ++ removeNC true r := by
  induction u with
  | nil => intro r; rfl
  | cons c u' ih =>
    intro r
    have hc := hw c (by simp)
    rw [List.cons_append, removeNC_cons_prev_word, hc,
      ih (fun d hd => hw d (by simp [hd])) r]
    rfl

theorem removeNC_digit_run (s : List Char) (hs : ∀ c ∈ s, isDigitChar c = true)
    (hne : s ≠ []) : ∀ (b : Bool) (r : List Char),
      removeNC b (s ++ r) = s ++ removeNC true r := by
  cases s with
  | nil => exact absurd rfl hne
  | cons d s' =>
    intro b r
    have hd := hs d (by simp)
    rw [List.cons_append, removeNC_cons_nonN b d _ (digit_not_N hd),
      alnum_word (digit_alnum hd),
      removeNC_word_run s' (fun c hc => alnum_word (digit_alnum (hs c (by simp [hc])))) r]
    rfl

theorem boundaryNext_word {t : List Char} {d : Char} (hd : isWordChar d = true) :
    boundaryNext (d :: t) = false := by
  simp [boundaryNext, hd]

theorem removeNC_no_match (pr : Bool) (x y : Char) (rest : List Char)
    (h : (!pr && isNchar x && isCchar y && boundaryNext rest) = false) :
    removeNC pr (x :: y :: rest) = x :: removeNC (isWordChar x) (y :: rest) := by
  simp [removeNC, h]

theorem removeNC_true_pair (a b : Char) : removeNC true [a, b] = [a, b] := by
  simp [removeNC]

theorem removeNC_inside_end (u : List Char) (a b : Char) (hu : u ≠ [])
    (hw : ∀ c ∈ u, isAlnumChar c = true) (ha : isNchar a = true)
    (hb : isCchar b = true) : removeNC false (u ++ [a, b]) = u ++ [a, b] := by
  cases u with
  | nil => exact absurd rfl hu
  | cons c u' =>
    have hcw : isWordChar c = true := alnum_word (hw c (by simp))
    cases u' with
    | nil =>
      rw [List.singleton_append,
        removeNC_no_match false c a [b] (by simp [isCchar_not_N ha]), hcw,
        removeNC_cons_prev_word, isNchar_word ha]
      rfl
    | cons d u'' =>
      have hbd : boundaryNext (u'' ++ [a, b]) = false := by
        cases u'' with
        | nil => exact boundaryNext_word (isNchar_word ha)
        | cons e u3 =>
          exact boundaryNext_word (alnum_word (hw e (by simp)))
      have hrun : ∀ c' ∈ d :: u'', isWordChar c' = true := fun c' hc' =>
        alnum_word (hw c' (by simp at hc' ⊢; tauto))
      calc removeNC false ((c :: d :: u'') ++ [a, b])
          = c :: removeNC (isWordChar c) (d :: (u'' ++ [a, b])) := by
            rw [List.cons_append, List.cons_append,
              removeNC_no_match false c d (u'' ++ [a, b]) (by simp [hbd])]
        _ = c :: ((d :: u'') ++ removeNC true [a, b]) := by
            rw [hcw, show d :: (u'' ++ [a, b]) = (d :: u'') ++ [a, b] from rfl,
              removeNC_word_run (d :: u'') hrun]
        _ = (c :: d :: u'') ++ [a, b] := by rw [removeNC_true_pair]; rfl

theorem removeNC_inside_start (a b : Char) (v : List Char)
    (ha : isNchar a = true) (hb : isCchar b = true) (hv : v ≠ [])
    (hw : ∀ c ∈ v, isAlnumChar c = true) :
    removeNC false (a :: b :: v) = a :: b :: v := by
  cases v with
  | nil => exact absurd rfl hv
  | cons d v' =>
    have hbd : boundaryNext (d :: v') = false :=
      boundaryNext_word (alnum_word (hw d (by simp)))
    have hrun : removeNC true (d :: v') = d :: v' := by
      have h0 := removeNC_word_run (d :: v') (fun c' hc' => alnum_word (hw c' hc')) []
      simpa [removeNC] using h0
    rw [removeNC_no_match false a b (d :: v') (by simp [hbd]),
      isNchar_word ha, removeNC_cons_prev_word, isCchar_word hb, hrun]

/-! ### `replaceAtSign` behaviour -/

theorem replaceAtSign_eq_map (l : List Char) :
    replaceAtSign l = l.map (fun c => if c = '@' then '0' else c) := by
  induction l with
  | nil => rfl
  | cons c r ih => simp [replaceAtSign, ih]

theorem replaceAtSign_id (l : List Char) (h : ('@' : Char) ∉ l) :
    replaceAtSign l = l := by
  induction l with
  | nil => rfl
  | cons c r ih =>
    have hc : c ≠ '@' := fun hc => h (by simp [hc])
    simp only [replaceAtSign, if_neg hc]
    rw [ih (fun hr => h (by simp [hr]))]

/-! ### Claim C6 -/

/-- C6: the per-line noise removal of `cleanOcrText` applies, in this fixed
order: (1) removal of every non-greedy parenthesized group, with a line
containing no closing parenthesis left as-is; (2) the same for angle
brackets; (3) removal of the token `NC` case-insensitively only at word
boundaries — never inside a longer alphanumeric token, whether the token
continues before or after the `NC`; (4) replacement of every `@` by `0`. -/
theorem c6_noise_steps :
    (∀ l : List Char, noiseClean l =
      replaceAtSign (removeNC false (removeGroup '<' '>' (removeGroup '(' ')' l)))) ∧
    (∀ u v w : List Char, ('(' : Char) ∉ u → (')' : Char) ∉ v →
      removeGroup '(' ')' (u ++ '(' :: (v ++ ')' :: w)) = u ++ removeGroup '(' ')' w) ∧
    (∀ l : List Char, (')' : Char) ∉ l → removeGroup '(' ')' l = l) ∧
    (∀ u v w : List Char, ('<' : Char) ∉ u → ('>' : Char) ∉ v →
      removeGroup '<' '>' (u ++ '<' :: (v ++ '>' :: w)) = u ++ removeGroup '<' '>' w) ∧
    (∀ l : List Char, ('>' : Char) ∉ l → removeGroup '<' '>' l = l) ∧
    (∀ (a b : Char) (r : List Char), isNchar a = true → isCchar b = true →
      boundaryNext r = true → removeNC false (a :: b :: r) = removeNC true r) ∧
    (∀ (u : List Char) (a b : Char), u ≠ [] → (∀ c ∈ u, isAlnumChar c = true) →
      isNchar a = true → isCchar b = true →
      removeNC false (u ++ [a, b]) = u ++ [a, b]) ∧
    (∀ (a b : Char) (v : List Char), isNchar a = true → isCchar b = true →
      v ≠ [] → (∀ c ∈ v, isAlnumChar c = true) →
      removeNC false (a :: b :: v) = a :: b :: v) ∧
    (∀ l : List Char, replaceAtSign l = l.map (fun c => if c = '@' then '0' else c)) :=
  ⟨fun _ => rfl,
   fun u v w hu hv => removeGroup_removes '(' ')' u v w hu hv,
   fun l h => removeGroup_no_close '(' ')' l h,
   fun u v w hu hv => removeGroup_removes '<' '>' u v w hu hv,
   fun l h => removeGroup_no_close '<' '>' l h,
   removeNC_match,
   removeNC_inside_end,
   removeNC_inside_start,
   replaceAtSign_eq_map⟩

theorem c6_witness :
    removeGroup '(' ')' (("a".data) ++ '(' :: (("x".data) ++ ')' :: ("b".data))) =
      ("a".data) ++ removeGroup '(' ')' ("b".data) ∧
    removeNC false (['x'] ++ ['N', 'C']) = ['x'] ++ ['N', 'C'] ∧
    removeNC false ('N' :: 'C' :: [' ', '1']) = removeNC true [' ', '1'] :=
  ⟨(c6_noise_steps).2.1 "a".data "x".data "b".data (by decide) (by decide),
   (c6_noise_steps).2.2.2.2.2.2.1 ['x'] 'N' 'C' (by decide) (by decide)
     (by decide) (by decide),
   (c6_noise_steps).2.2.2.2.2.1 'N' 'C' [' ', '1'] (by decide) (by decide) (by decide)⟩

/-! ### Soundness and completeness of the comma-dash finder -/

theorem space_not_alnum {c : Char} (h : isSpaceChar c = true) :
    isAlnumChar c = false := by
  cases ha : isAlnumChar c
  · rfl
  · rw [alnum_not_space ha] at h
    exact absurd h (by simp)

theorem space_not_digit {c : Char} (h : isSpaceChar c = true) :
    isDigitChar c = false := by
  cases hd : isDigitChar c
  · rfl
  · rw [digit_not_space hd] at h
    exact absurd h (by simp)

theorem dropWhile_head_not (p : Char → Bool) (l : List Char) :
    ∀ d, (l.dropWhile p).head? = some d → p d = false := by
  induction l with
  | nil => simp [List.dropWhile]
  | cons c r ih =>
    intro d hd
    by_cases hc : p c = true
    · rw [List.dropWhile_cons_of_pos hc] at hd
      exact ih d hd
    · rw [List.dropWhile_cons_of_neg hc] at hd
      simp only [List.head?_cons, Option.some.injEq] at hd
      subst hd
      simpa using hc

theorem ne_nil_of_isEmpty_eq_false {l : List Char} (h : l.isEmpty = false) :
    l ≠ [] := by
  simpa [List.isEmpty_iff] using h

theorem tryCommaDash_some {l p s e : List Char}
    (h : tryCommaDash l = some (p, s, e)) :
    (∃ v, l = p ++ ',' :: (s ++ '-' :: (e ++ v))) ∧
    p ≠ [] ∧ (∀ c ∈ p, isAlnumChar c = true) ∧
    s ≠ [] ∧ (∀ c ∈ s, isDigitChar c = true) ∧
    e ≠ [] ∧ (∀ c ∈ e, isDigitChar c = true) := by
  unfold tryCommaDash at h
  by_cases h1 : (l.takeWhile isAlnumChar).isEmpty
  · rw [if_pos h1] at h; exact absurd h (by simp)
  · rw [if_neg h1] at h
    cases hdrop : l.dropWhile isAlnumChar with
    | nil => rw [hdrop] at h; exact absurd h (by simp)
    | cons c1 r2 =>
      rw [hdrop] at h
      dsimp only [] at h
      by_cases hc1 : c1 = ','
      · rw [if_pos hc1] at h
        subst hc1
        by_cases h2 : (r2.takeWhile isDigitChar).isEmpty
        · rw [if_pos h2] at h; exact absurd h (by simp)
        · rw [if_neg h2] at h
          cases hdrop2 : r2.dropWhile isDigitChar with
          | nil => rw [hdrop2] at h; exact absurd h (by simp)
          | cons c2 r4 =>
            rw [hdrop2] at h
            dsimp only [] at h
            by_cases hc2 : c2 = '-'
            · rw [if_pos hc2] at h
              subst hc2
              by_cases h3 : (r4.takeWhile isDigitChar).isEmpty
              · rw [if_pos h3] at h; exact absurd h (by simp)
              · rw [if_neg h3] at h
                simp only [Option.some.injEq, Prod.mk.injEq] at h
                obtain ⟨rfl, rfl, rfl⟩ := h
                refine ⟨⟨r4.dropWhile isDigitChar, ?_⟩,
                  ne_nil_of_isEmpty_eq_false (by simpa using h1),
                  fun c hc => List.mem_takeWhile_imp hc,
                  ne_nil_of_isEmpty_eq_false (by simpa using h2),
                  fun c hc => List.mem_takeWhile_imp hc,
                  ne_nil_of_isEmpty_eq_false (by simpa using h3),
                  fun c hc => List.mem_takeWhile_imp hc⟩
                conv_lhs => rw [← List.takeWhile_append_dropWhile isAlnumChar l]
                rw [hdrop]
                congr 1
                simp only [List.cons_append, List.cons.injEq, true_and]
                conv_lhs => rw [← List.takeWhile_append_dropWhile isDigitChar r2]
                rw [hdrop2]
                congr 1
                simp only [List.cons_append, List.cons.injEq, true_and]
                conv_lhs => rw [← List.takeWhile_append_dropWhile isDigitChar r4]
            · rw [if_neg hc2] at h; exact absurd h (by simp)
      · rw [if_neg hc1] at h; exact absurd h (by simp)

theorem tryCommaDash_complete (p s e rest : List Char)
    (hp : p ≠ []) (hpa : ∀ c ∈ p, isAlnumChar c = true)
    (hs : s ≠ []) (hsd : ∀ c ∈ s, isDigitChar c = true)
    (he : e ≠ []) (hed : ∀ c ∈ e, isDigitChar c = true) :
    (tryCommaDash (p ++ ',' :: (s ++ '-' :: (e ++ rest)))).isSome = true := by
  obtain ⟨hpt, hpd⟩ := run_split isAlnumChar p (',' :: (s ++ '-' :: (e ++ rest)))
    hpa (by intro d hd; simp at hd; subst hd; decide)
  obtain ⟨hst, hsd'⟩ := run_split isDigitChar s ('-' :: (e ++ rest))
    hsd (by intro d hd; simp at hd; subst hd; decide)
  unfold tryCommaDash
  rw [hpt, hpd]
  rw [if_neg (by simpa [List.isEmpty_iff] using hp)]
  dsimp only []
  rw [if_pos rfl, hst, hsd']
  rw [if_neg (by simpa [List.isEmpty_iff] using hs)]
  dsimp only []
  rw [if_pos rfl]
  cases e with
  | nil => exact absurd rfl he
  | cons c e' =>
    have hc : isDigitChar c = true := hed c (by simp)
    rw [List.cons_append, List.takeWhile_cons_of_pos hc]
    rw [if_neg (by simp)]
    rfl

theorem commaDashFind_some :
    ∀ {l p s e : List Char}, commaDashFind l = some (p, s, e) →
      (∃ u v, l = u ++ (p ++ ',' :: (s ++ '-' :: e)) ++ v) ∧
      p ≠ [] ∧ (∀ c ∈ p, isAlnumChar c = true) ∧
      s ≠ [] ∧ (∀ c ∈ s, isDigitChar c = true) ∧
      e ≠ [] ∧ (∀ c ∈ e, isDigitChar c = true) := by
  intro l
  induction l with
  | nil => intro p s e h; simp [commaDashFind] at h
  | cons c r ih =>
    intro p s e h
    unfold commaDashFind at h
    cases htry : tryCommaDash (c :: r) with
    | some g =>
      rw [htry] at h
      simp only [Option.some.injEq] at h
      subst h
      obtain ⟨⟨v, hv⟩, hp, hpa, hs, hsd, he, hed⟩ := tryCommaDash_some htry
      refine ⟨⟨[], v, ?_⟩, hp, hpa, hs, hsd, he, hed⟩
      simp only [List.nil_append]
      rw [hv]
      simp
    | none =>
      rw [htry] at h
      obtain ⟨⟨u, v, huv⟩, rest⟩ := ih h
      exact ⟨⟨c :: u, v, by simp [huv]⟩, rest⟩

theorem commaDashFind_complete :
    ∀ (u mid rest : List Char) (p s e : List Char),
      mid = p ++ ',' :: (s ++ '-' :: e) →
      p ≠ [] → (∀ c ∈ p, isAlnumChar c = true) →
      s ≠ [] → (∀ c ∈ s, isDigitChar c = true) →
      e ≠ [] → (∀ c ∈ e, isDigitChar c = true) →
      (commaDashFind (u ++ mid ++ rest)).isSome = true := by
  intro u
  induction u with
  | nil =>
    intro mid rest p s e hmid hp hpa hs hsd he hed
    subst hmid
    obtain ⟨c, p', rfl⟩ : ∃ c p', p = c :: p' := by
      cases p with
      | nil => exact absurd rfl hp
      | cons c p' => exact ⟨c, p', rfl⟩
    have hcomp := tryCommaDash_complete (c :: p') s e rest hp hpa hs hsd he hed
    have hassoc : ([] ++ ((c :: p') ++ ',' :: (s ++ '-' :: e)) ++ rest) =
        c :: (p' ++ ',' :: (s ++ '-' :: (e ++ rest))) := by simp
    rw [hassoc]
    unfold commaDashFind
    cases htry : tryCommaDash (c :: (p' ++ ',' :: (s ++ '-' :: (e ++ rest)))) with
    | some g => simp
    | none =>
      rw [show ((c :: p') ++ ',' :: (s ++ '-' :: (e ++ rest))) =
        c :: (p' ++ ',' :: (s ++ '-' :: (e ++ rest))) from rfl, htry] at hcomp
      exact absurd hcomp (by simp)
  | cons c u' ih =>
    intro mid rest p s e hmid hp hpa hs hsd he hed
    show (commaDashFind (c :: (u' ++ mid ++ rest))).isSome = true
    unfold commaDashFind
    cases htry : tryCommaDash (c :: (u' ++ mid ++ rest)) with
    | some g => simp
    | none => exact ih mid rest p s e hmid hp hpa hs hsd he hed

theorem commaDashShape_iff (l : List Char) :
    hasCommaDashShape l ↔ (commaDashFind l).isSome = true := by
  constructor
  · rintro ⟨u, p, s, e, v, rfl, hp, hpa, hs, hsd, he, hed⟩
    exact commaDashFind_complete u (p ++ ',' :: (s ++ '-' :: e)) v p s e rfl
      hp hpa hs hsd he hed
  · intro h
    cases hfind : commaDashFind l with
    | none => rw [hfind] at h; exact absurd h (by simp)
    | some g =>
      obtain ⟨p, s, e⟩ := g
      obtain ⟨⟨u, v, huv⟩, hp, hpa, hs, hsd, he, hed⟩ := commaDashFind_some hfind
      exact ⟨u, p, s, e, v, huv, hp, hpa, hs, hsd, he, hed⟩

/-! ### Soundness and completeness of the whitespace-shape finder -/

theorem spaceShapeFind_some {t p s e : List Char}
    (h : spaceShapeFind t = some (p, s, e)) :
    (∃ w1 w2 v, t = p ++ (w1 ++ (s ++ (w2 ++ (e ++ v)))) ∧
      w1 ≠ [] ∧ (∀ c ∈ w1, isSpaceChar c = true) ∧
      w2 ≠ [] ∧ (∀ c ∈ w2, isSpaceChar c = true)) ∧
    (∀ c ∈ p, isAlnumChar c = true) ∧
    s ≠ [] ∧ (∀ c ∈ s, isDigitChar c = true) ∧
    e ≠ [] ∧ (∀ c ∈ e, isDigitChar c = true) := by
  unfold spaceShapeFind at h
  by_cases h1 : ((t.dropWhile isAlnumChar).takeWhile isSpaceChar).isEmpty
  · rw [if_pos h1] at h; exact absurd h (by simp)
  · rw [if_neg h1] at h
    by_cases h2 : (((t.dropWhile isAlnumChar).dropWhile isSpaceChar).takeWhile
        isDigitChar).isEmpty
    · rw [if_pos h2] at h; exact absurd h (by simp)
    · rw [if_neg h2] at h
      by_cases h3 : ((((t.dropWhile isAlnumChar).dropWhile isSpaceChar).dropWhile
          isDigitChar).takeWhile isSpaceChar).isEmpty
      · rw [if_pos h3] at h; exact absurd h (by simp)
      · rw [if_neg h3] at h
        by_cases h4 : (((((t.dropWhile isAlnumChar).dropWhile isSpaceChar).dropWhile
            isDigitChar).dropWhile isSpaceChar).takeWhile isDigitChar).isEmpty
        · rw [if_pos h4] at h; exact absurd h (by simp)
        · rw [if_neg h4] at h
          simp only [Option.some.injEq, Prod.mk.injEq] at h
          obtain ⟨rfl, rfl, rfl⟩ := h
          refine ⟨⟨(t.dropWhile isAlnumChar).takeWhile isSpaceChar,
            (((t.dropWhile isAlnumChar).dropWhile isSpaceChar).dropWhile
              isDigitChar).takeWhile isSpaceChar,
            ((((t.dropWhile isAlnumChar).dropWhile isSpaceChar).dropWhile
              isDigitChar).dropWhile isSpaceChar).dropWhile isDigitChar, ?_,
            ne_nil_of_isEmpty_eq_false (by simpa using h1),
            fun c hc => List.mem_takeWhile_imp hc,
            ne_nil_of_isEmpty_eq_false (by simpa using h3),
            fun c hc => List.mem_takeWhile_imp hc⟩,
            fun c hc => List.mem_takeWhile_imp hc,
            ne_nil_of_isEmpty_eq_false (by simpa using h2),
            fun c hc => List.mem_takeWhile_imp hc,
            ne_nil_of_isEmpty_eq_false (by simpa using h4),
            fun c hc => List.mem_takeWhile_imp hc⟩
          conv_lhs => rw [← List.takeWhile_append_dropWhile isAlnumChar t]
          congr 1
          conv_lhs => rw [← List.takeWhile_append_dropWhile isSpaceChar
            (t.dropWhile isAlnumChar)]
          congr 1
          conv_lhs => rw [← List.takeWhile_append_dropWhile isDigitChar
            ((t.dropWhile isAlnumChar).dropWhile isSpaceChar)]
          congr 1
          conv_lhs => rw [← List.takeWhile_append_dropWhile isSpaceChar
            (((t.dropWhile isAlnumChar).dropWhile isSpaceChar).dropWhile isDigitChar)]
          congr 1
          conv_lhs => rw [← List.takeWhile_append_dropWhile isDigitChar
            ((((t.dropWhile isAlnumChar).dropWhile isSpaceChar).dropWhile
              isDigitChar).dropWhile isSpaceChar)]

theorem spaceShapeFind_complete (p w1 s w2 e v : List Char)
    (hpa : ∀ c ∈ p, isAlnumChar c = true)
    (hw1 : w1 ≠ []) (hw1s : ∀ c ∈ w1, isSpaceChar c = true)
    (hs : s ≠ []) (hsd : ∀ c ∈ s, isDigitChar c = true)
    (hw2 : w2 ≠ []) (hw2s : ∀ c ∈ w2, isSpaceChar c = true)
    (he : e ≠ []) (hed : ∀ c ∈ e, isDigitChar c = true) :
    (spaceShapeFind (p ++ (w1 ++ (s ++ (w2 ++ (e ++ v)))))).isSome = true := by
  obtain ⟨hpt, hpd⟩ := run_split isAlnumChar p (w1 ++ (s ++ (w2 ++ (e ++ v)))) hpa
    (by
      intro d hd
      cases w1 with
      | nil => exact absurd rfl hw1
      | cons c w1' =>
        simp only [List.cons_append, List.head?_cons, Option.some.injEq] at hd
        subst hd
        exact space_not_alnum (hw1s c (by simp)))
  obtain ⟨hw1t, hw1d⟩ := run_split isSpaceChar w1 (s ++ (w2 ++ (e ++ v))) hw1s
    (by
      intro d hd
      cases s with
      | nil => exact absurd rfl hs
      | cons c s' =>
        simp only [List.cons_append, List.head?_cons, Option.some.injEq] at hd
        subst hd
        exact digit_not_space (hsd c (by simp)))
  obtain ⟨hst, hsd'⟩ := run_split isDigitChar s (w2 ++ (e ++ v)) hsd
    (by
      intro d hd
      cases w2 with
      | nil => exact absurd rfl hw2
      | cons c w2' =>
        simp only [List.cons_append, List.head?_cons, Option.some.injEq] at hd
        subst hd
        exact space_not_digit (hw2s c (by simp)))
  obtain ⟨hw2t, hw2d⟩ := run_split isSpaceChar w2 (e ++ v) hw2s
    (by
      intro d hd
      cases e with
      | nil => exact absurd rfl he
      | cons c e' =>
        simp only [List.cons_append, List.head?_cons, Option.some.injEq] at hd
        subst hd
        exact digit_not_space (hed c (by simp)))
  unfold spaceShapeFind
  dsimp only []
  rw [hpd, hw1t]
  rw [if_neg (by simpa [List.isEmpty_iff] using hw1)]
  rw [hw1d, hst]
  rw [if_neg (by simpa [List.isEmpty_iff] using hs)]
  rw [hsd', hw2t]
  rw [if_neg (by simpa [List.isEmpty_iff] using hw2)]
  rw [hw2d]
  cases e with
  | nil => exact absurd rfl he
  | cons c e' =>
    have hc : isDigitChar c = true := hed c (by simp)
    rw [List.cons_append, List.takeWhile_cons_of_pos hc]
    rw [if_neg (by simp)]
    rfl

theorem spaceShape_iff (t : List Char) :
    hasSpaceShape t ↔ (spaceShapeFind t).isSome = true := by
  constructor
  · rintro ⟨p, w1, s, w2, e, v, ht, hpa, hw1, hw1s, hs, hsd, hw2, hw2s, he, hed⟩
    have ht' : t = p ++ (w1 ++ (s ++ (w2 ++ (e ++ v)))) := by
      rw [ht]; simp
    rw [ht']
    exact spaceShapeFind_complete p w1 s w2 e v hpa hw1 hw1s hs hsd hw2 hw2s he hed
  · intro h
    cases hfind : spaceShapeFind t with
    | none => rw [hfind] at h; exact absurd h (by simp)
    | some g =>
      obtain ⟨p, s, e⟩ := g
      obtain ⟨⟨w1, w2, v, ht, hw1, hw1s, hw2, hw2s⟩, hpa, hs, hsd, he, hed⟩ :=
        spaceShapeFind_some hfind
      exact ⟨p, w1, s, w2, e, v, by rw [ht]; simp, hpa, hw1, hw1s, hs, hsd,
        hw2, hw2s, he, hed⟩

/-! ### Claim C4 -/

theorem cleanLineV2_comma (line p s e : List Char)
    (hline : (trimL line).isEmpty = false)
    (hfind : commaDashFind (noiseClean line) = some (p, s, e)) :
    cleanLineV2 line = [p ++ ',' :: (s ++ '-' :: e)] := by
  unfold cleanLineV2
  rw [if_neg (by simp [hline])]
  dsimp only []
  rw [hfind]

theorem cleanLineV2_space (line p s e : List Char)
    (hline : (trimL line).isEmpty = false)
    (hnone : commaDashFind (noiseClean line) = none)
    (hsfind : spaceShapeFind (trimL (noiseClean line)) = some (p, s, e)) :
    cleanLineV2 line = [trimL (p ++ ' ' :: (s ++ ' ' :: e))] := by
  unfold cleanLineV2
  rw [if_neg (by simp [hline])]
  dsimp only []
  rw [hnone, hsfind]

theorem cleanLineV2_drop (line : List Char)
    (hline : (trimL line).isEmpty = false)
    (hnone : commaDashFind (noiseClean line) = none)
    (hsnone : spaceShapeFind (trimL (noiseClean line)) = none) :
    cleanLineV2 line = [] := by
  unfold cleanLineV2
  rw [if_neg (by simp [hline])]
  dsimp only []
  rw [hnone, hsnone]

/-- C4: on each non-blank line, after noise removal the comma-dash shape is
tried first, anywhere in the line: if the line contains the shape at all,
the finder succeeds and exactly `prefix,start-end` is emitted, the rest of
the line discarded; only if no comma-dash shape exists is the whitespace
shape tried on the trimmed line, emitting the space-joined form; if neither
shape is present, the line contributes nothing. -/
theorem c4_extraction_priority (line : List Char)
    (hline : (trimL line).isEmpty = false) :
    (hasCommaDashShape (noiseClean line) →
      ∃ p s e, commaDashFind (noiseClean line) = some (p, s, e) ∧
        p ≠ [] ∧ (∀ c ∈ p, isAlnumChar c = true) ∧
        s ≠ [] ∧ (∀ c ∈ s, isDigitChar c = true) ∧
        e ≠ [] ∧ (∀ c ∈ e, isDigitChar c = true) ∧
        (∃ u v, noiseClean line = u ++ (p ++ ',' :: (s ++ '-' :: e)) ++ v) ∧
        cleanLineV2 line = [p ++ ',' :: (s ++ '-' :: e)]) ∧
    (¬ hasCommaDashShape (noiseClean line) →
      commaDashFind (noiseClean line) = none ∧
      (hasSpaceShape (trimL (noiseClean line)) →
        ∃ p s e, spaceShapeFind (trimL (noiseClean line)) = some (p, s, e) ∧
          cleanLineV2 line = [trimL (p ++ ' ' :: (s ++ ' ' :: e))]) ∧
      (¬ hasSpaceShape (trimL (noiseClean line)) →
        spaceShapeFind (trimL (noiseClean line)) = none ∧ cleanLineV2 line = [])) := by
  refine ⟨?_, ?_⟩
  · intro hshape
    have hsome := (commaDashShape_iff (noiseClean line)).mp hshape
    cases hfind : commaDashFind (noiseClean line) with
    | none => rw [hfind] at hsome; exact absurd hsome (by simp)
    | some g =>
      obtain ⟨p, s, e⟩ := g
      obtain ⟨⟨u, v, huv⟩, hp, hpa, hs, hsd, he, hed⟩ := commaDashFind_some hfind
      exact ⟨p, s, e, rfl, hp, hpa, hs, hsd, he, hed, ⟨u, v, huv⟩,
        cleanLineV2_comma line p s e hline hfind⟩
  · intro hnshape
    have hnone : commaDashFind (noiseClean line) = none := by
      cases hfind : commaDashFind (noiseClean line) with
      | none => rfl
      | some g =>
        exact absurd ((commaDashShape_iff _).mpr (by simp [hfind])) hnshape
    refine ⟨hnone, ?_, ?_⟩
    · intro hsp
      have hsome := (spaceShape_iff _).mp hsp
      cases hsfind : spaceShapeFind (trimL (noiseClean line)) with
      | none => rw [hsfind] at hsome; exact absurd hsome (by simp)
      | some g =>
        obtain ⟨p, s, e⟩ := g
        exact ⟨p, s, e, rfl, cleanLineV2_space line p s e hline hnone hsfind⟩
    · intro hnsp
      have hsnone : spaceShapeFind (trimL (noiseClean line)) = none := by
        cases hsfind : spaceShapeFind (trimL (noiseClean line)) with
        | none => rfl
        | some g =>
          exact absurd ((spaceShape_iff _).mpr (by simp [hsfind])) hnsp
      exact ⟨hsnone, cleanLineV2_drop line hline hnone hsnone⟩

theorem c4_witness :
    (trimL ("BR@21,365-372 NC".data)).isEmpty = false ∧
    ((hasCommaDashShape (noiseClean ("BR@21,365-372 NC".data)) →
      ∃ p s e, commaDashFind (noiseClean ("BR@21,365-372 NC".data)) = some (p, s, e) ∧
        p ≠ [] ∧ (∀ c ∈ p, isAlnumChar c = true) ∧
        s ≠ [] ∧ (∀ c ∈ s, isDigitChar c = true) ∧
        e ≠ [] ∧ (∀ c ∈ e, isDigitChar c = true) ∧
        (∃ u v, noiseClean ("BR@21,365-372 NC".data) =
          u ++ (p ++ ',' :: (s ++ '-' :: e)) ++ v) ∧
        cleanLineV2 ("BR@21,365-372 NC".data) = [p ++ ',' :: (s ++ '-' :: e)]) ∧
    (¬ hasCommaDashShape (noiseClean ("BR@21,365-372 NC".data)) →
      commaDashFind (noiseClean ("BR@21,365-372 NC".data)) = none ∧
      (hasSpaceShape (trimL (noiseClean ("BR@21,365-372 NC".data))) →
        ∃ p s e, spaceShapeFind (trimL (noiseClean ("BR@21,365-372 NC".data))) =
            some (p, s, e) ∧
          cleanLineV2 ("BR@21,365-372 NC".data) =
            [trimL (p ++ ' ' :: (s ++ ' ' :: e))]) ∧
      (¬ hasSpaceShape (trimL (noiseClean ("BR@21,365-372 NC".data))) →
        spaceShapeFind (trimL (noiseClean ("BR@21,365-372 NC".data))) = none ∧
        cleanLineV2 ("BR@21,365-372 NC".data) = []))) :=
  ⟨by decide, c4_extraction_priority _ (by decide)⟩

/-! ### Claim C3 -/

/-- C3 counterexample: the line `"_NC,1-2"` matches the comma-dash pattern
(prefix `NC`, since `_` is not in the prefix class but is a word character,
so `\bNC\b` does not fire), yet the round trip is not idempotent: the first
pass yields `"NC,1-2"`, and the second pass strips the now word-bounded `NC`
and then drops the line, yielding `""`. -/
theorem c3_counterexample :
    (commaDashFind ("_NC,1-2".data)).isSome = true ∧
    cleanNormalize (cleanNormalize "_NC,1-2") ≠ cleanNormalize "_NC,1-2" := by
  decide

theorem canon_classify (p s e : List Char)
    (hpa : ∀ c ∈ p, isAlnumChar c = true)
    (hsd : ∀ c ∈ s, isDigitChar c = true)
    (hed : ∀ c ∈ e, isDigitChar c = true) :
    ∀ c ∈ p ++ ',' :: (s ++ '-' :: e),
      isAlnumChar c = true ∨ c = ',' ∨ isDigitChar c = true ∨ c = '-' := by
  intro c hc
  rcases List.mem_append.mp hc with h | h
  · exact Or.inl (hpa c h)
  · rcases List.mem_cons.mp h with rfl | h
    · exact Or.inr (Or.inl rfl)
    · rcases List.mem_append.mp h with h | h
      · exact Or.inr (Or.inr (Or.inl (hsd c h)))
      · rcases List.mem_cons.mp h with rfl | h
        · exact Or.inr (Or.inr (Or.inr rfl))
        · exact Or.inr (Or.inr (Or.inl (hed c h)))

theorem canon_no_space (p s e : List Char)
    (hpa : ∀ c ∈ p, isAlnumChar c = true)
    (hsd : ∀ c ∈ s, isDigitChar c = true)
    (hed : ∀ c ∈ e, isDigitChar c = true) :
    ∀ c ∈ p ++ ',' :: (s ++ '-' :: e), isSpaceChar c = false := by
  intro c hc
  rcases canon_classify p s e hpa hsd hed c hc with h | rfl | h | rfl
  · exact alnum_not_space h
  · decide
  · exact digit_not_space h
  · decide

theorem canon_not_mem (p s e : List Char) (X : Char)
    (hpa : ∀ c ∈ p, isAlnumChar c = true)
    (hsd : ∀ c ∈ s, isDigitChar c = true)
    (hed : ∀ c ∈ e, isDigitChar c = true)
    (hX1 : isAlnumChar X = false) (hX2 : X ≠ ',')
    (hX3 : isDigitChar X = false) (hX4 : X ≠ '-') :
    X ∉ p ++ ',' :: (s ++ '-' :: e) := by
  intro hmem
  rcases canon_classify p s e hpa hsd hed X hmem with h | h | h | h
  · rw [hX1] at h; exact absurd h (by simp)
  · exact hX2 h
  · rw [hX3] at h; exact absurd h (by simp)
  · exact hX4 h

theorem removeNC_dash_tail (e : List Char) (he : e ≠ [])
    (hed : ∀ c ∈ e, isDigitChar c = true) :
    removeNC false ('-' :: e) = '-' :: e := by
  rw [show removeNC false ('-' :: e) = '-' :: removeNC (isWordChar '-') e from by
    cases e with
    | nil => exact absurd rfl he
    | cons c e' => exact removeNC_cons_nonN false '-' (c :: e') (by decide)]
  rw [show isWordChar '-' = false from by decide]
  have : removeNC false e = e := by
    conv_lhs => rw [show e = e ++ [] by simp]
    rw [removeNC_digit_run e hed he false []]
    simp [removeNC]
  rw [this]

theorem removeNC_comma_tail (s e : List Char)
    (hs : s ≠ []) (hsd : ∀ c ∈ s, isDigitChar c = true)
    (he : e ≠ []) (hed : ∀ c ∈ e, isDigitChar c = true) :
    removeNC true (',' :: (s ++ '-' :: e)) = ',' :: (s ++ '-' :: e) := by
  rw [removeNC_cons_prev_word, show isWordChar ',' = false from by decide,
    removeNC_digit_run s hsd hs false ('-' :: e)]
  have h1 : removeNC true ('-' :: e) = '-' :: e := by
    rw [removeNC_cons_prev_word, show isWordChar '-' = false from by decide]
    have : removeNC false e = e := by
      conv_lhs => rw [show e = e ++ [] by simp]
      rw [removeNC_digit_run e hed he false []]
      simp [removeNC]
    rw [this]
  rw [h1]

theorem removeNC_canonical (p s e : List Char)
    (hp : p ≠ []) (hpa : ∀ c ∈ p, isAlnumChar c = true)
    (hs : s ≠ []) (hsd : ∀ c ∈ s, isDigitChar c = true)
    (he : e ≠ []) (hed : ∀ c ∈ e, isDigitChar c = true)
    (hnc : isNCtoken p = false) :
    removeNC false (p ++ ',' :: (s ++ '-' :: e)) = p ++ ',' :: (s ++ '-' :: e) := by
  cases p with
  | nil => exact absurd rfl hp
  | cons a p' =>
    cases p' with
    | nil =>
      rw [List.singleton_append,
        removeNC_no_match false a ',' (s ++ '-' :: e)
          (by simp [show isCchar ',' = false from by decide]),
        alnum_word (hpa a (by simp)),
        removeNC_comma_tail s e hs hsd he hed]
    | cons b p'' =>
      have hcond : (!false && isNchar a && isCchar b &&
          boundaryNext (p'' ++ ',' :: (s ++ '-' :: e))) = false := by
        cases p'' with
        | nil =>
          simp only [List.nil_append, boundaryNext,
            show isWordChar ',' = false from by decide]
          simp only [isNCtoken] at hnc
          simp [hnc]
        | cons d p3 =>
          rw [List.cons_append,
            boundaryNext_word (alnum_word (hpa d (by simp)))]
          simp
      calc removeNC false ((a :: b :: p'') ++ ',' :: (s ++ '-' :: e))
          = a :: removeNC (isWordChar a)
              ((b :: p'') ++ ',' :: (s ++ '-' :: e)) := by
            rw [show ((a :: b :: p'') ++ ',' :: (s ++ '-' :: e)) =
              a :: b :: (p'' ++ ',' :: (s ++ '-' :: e)) from by simp,
              removeNC_no_match false a b _ hcond]
            rfl
        _ = a :: ((b :: p'') ++ removeNC true (',' :: (s ++ '-' :: e))) := by
            rw [alnum_word (hpa a (by simp)),
              removeNC_word_run (b :: p'')
                (fun c hc => alnum_word (hpa c (by simp [List.mem_cons] at hc ⊢; tauto)))]
        _ = (a :: b :: p'') ++ ',' :: (s ++ '-' :: e) := by
            rw [removeNC_comma_tail s e hs hsd he hed]
            rfl

theorem intercalate_singleton (sep x : List Char) :
    List.intercalate sep [x] = x := by
  simp [List.intercalate, List.intersperse]

theorem clean_canonical (p s e : List Char)
    (hp : p ≠ []) (hpa : ∀ c ∈ p, isAlnumChar c = true)
    (hs : s ≠ []) (hsd : ∀ c ∈ s, isDigitChar c = true)
    (he : e ≠ []) (hed : ∀ c ∈ e, isDigitChar c = true)
    (hnc : isNCtoken p = false) :
    cleanOcrTextV2L (p ++ ',' :: (s ++ '-' :: e)) = p ++ ',' :: (s ++ '-' :: e) := by
  have hnospace := canon_no_space p s e hpa hsd hed
  have htrim : trimL (p ++ ',' :: (s ++ '-' :: e)) = p ++ ',' :: (s ++ '-' :: e) :=
    trimL_eq_self _ hnospace
  have hcne : p ++ ',' :: (s ++ '-' :: e) ≠ [] := by
    cases p with
    | nil => exact absurd rfl hp
    | cons c p' => simp
  have hnl : ('\n' : Char) ∉ p ++ ',' :: (s ++ '-' :: e) := fun hmem => by
    have := hnospace '\n' hmem
    exact absurd this (by decide)
  have hsplit : splitNl (p ++ ',' :: (s ++ '-' :: e)) =
      [p ++ ',' :: (s ++ '-' :: e)] := splitNl_no_newline _ hnl
  have hnoise : noiseClean (p ++ ',' :: (s ++ '-' :: e)) =
      p ++ ',' :: (s ++ '-' :: e) := by
    unfold noiseClean
    rw [removeGroup_no_close '(' ')' _
        (canon_not_mem p s e ')' hpa hsd hed (by decide) (by decide) (by decide) (by decide)),
      removeGroup_no_close '<' '>' _
        (canon_not_mem p s e '>' hpa hsd hed (by decide) (by decide) (by decide) (by decide)),
      removeNC_canonical p s e hp hpa hs hsd he hed hnc,
      replaceAtSign_id _
        (canon_not_mem p s e '@' hpa hsd hed (by decide) (by decide) (by decide) (by decide))]
  have hfind : commaDashFind (p ++ ',' :: (s ++ '-' :: e)) = some (p, s, e) := by
    obtain ⟨hpt, hpd⟩ := run_split isAlnumChar p (',' :: (s ++ '-' :: e)) hpa
      (by intro d hd; simp at hd; subst hd; decide)
    obtain ⟨hst, hsd2⟩ := run_split isDigitChar s ('-' :: e) hsd
      (by intro d hd; simp at hd; subst hd; decide)
    have htry : tryCommaDash (p ++ ',' :: (s ++ '-' :: e)) = some (p, s, e) := by
      unfold tryCommaDash
      rw [hpt, hpd, if_neg (by simpa [List.isEmpty_iff] using hp)]
      dsimp only []
      rw [if_pos rfl, hst, hsd2, if_neg (by simpa [List.isEmpty_iff] using hs)]
      dsimp only []
      rw [if_pos rfl, takeWhile_all isDigitChar e hed,
        if_neg (by simpa [List.isEmpty_iff] using he)]
    cases hc : p ++ ',' :: (s ++ '-' :: e) with
    | nil => exact absurd hc hcne
    | cons c rest =>
      rw [hc] at htry
      unfold commaDashFind
      rw [htry]
  have hclean : cleanLineV2 (p ++ ',' :: (s ++ '-' :: e)) =
      [p ++ ',' :: (s ++ '-' :: e)] :=
    cleanLineV2_comma _ p s e
      (by rw [htrim]; simpa [List.isEmpty_iff] using hcne)
      (by rw [hnoise]; exact hfind)
  unfold cleanOcrTextV2L
  rw [if_neg (by rw [htrim]; simpa [List.isEmpty_iff] using hcne), hsplit]
  simp only [List.map_cons, List.map_nil, hclean, List.flatten]
  rw [show ([p ++ ',' :: (s ++ '-' :: e)] ++ ([] : List (List Char))) =
    [p ++ ',' :: (s ++ '-' :: e)] from by simp]
  exact intercalate_singleton _ _

theorem normalize_no_ws (l : List Char) (h : ∀ c ∈ l, isSpaceChar c = false) :
    normalizeCircuitIdL l = l := by
  cases hl : l with
  | nil => rfl
  | cons c r =>
    rw [← hl]
    have htrim : trimL l = l := trimL_eq_self l h
    have htok : wsTokens (trimL l) = [l] := by
      rw [htrim]
      exact wsTokens_no_space l (by rw [hl]; simp) h
    exact normalizeL_small l (by rw [htok]; simp)

/-- C3 amended: the round trip `normalize ∘ clean` is idempotent on every
line whose first pass produces a canonical `prefix,start-end` whose prefix is
not the word `NC` up to case; a matching line whose extracted prefix is
exactly `NC` (reachable e.g. when the prefix is preceded by an underscore)
escapes the first pass's `\bNC\b` removal but not the second's, so
idempotence can fail there (`"_NC,1-2"`). -/
theorem c3_amended (x : String) (p s e : List Char)
    (hfx : (cleanNormalize x).data = p ++ ',' :: (s ++ '-' :: e))
    (hp : p ≠ []) (hpa : ∀ c ∈ p, isAlnumChar c = true)
    (hs : s ≠ []) (hsd : ∀ c ∈ s, isDigitChar c = true)
    (he : e ≠ []) (hed : ∀ c ∈ e, isDigitChar c = true)
    (hnc : isNCtoken p = false) :
    cleanNormalize (cleanNormalize x) = cleanNormalize x := by
  have hfx' : cleanNormalize x = (⟨p ++ ',' :: (s ++ '-' :: e)⟩ : String) := by
    rw [← hfx]
  rw [hfx']
  show normalizeCircuitId (cleanOcrText ⟨p ++ ',' :: (s ++ '-' :: e)⟩) = _
  have h1 : cleanOcrText ⟨p ++ ',' :: (s ++ '-' :: e)⟩ =
      (⟨p ++ ',' :: (s ++ '-' :: e)⟩ : String) := by
    show (⟨cleanOcrTextV2L (p ++ ',' :: (s ++ '-' :: e))⟩ : String) = _
    rw [clean_canonical p s e hp hpa hs hsd he hed hnc]
  rw [h1]
  show (⟨normalizeCircuitIdL (p ++ ',' :: (s ++ '-' :: e))⟩ : String) = _
  rw [normalize_no_ws _ (canon_no_space p s e hpa hsd hed)]

theorem c3_witness :
    (cleanNormalize "BR@21,365-372 NC").data =
      ("BR021".data) ++ ',' :: (("365".data) ++ '-' :: ("372".data)) ∧
    cleanNormalize (cleanNormalize "BR@21,365-372 NC") =
      cleanNormalize "BR@21,365-372 NC" :=
  ⟨by decide,
   c3_amended "BR@21,365-372 NC" ("BR021".data) ("365".data) ("372".data)
     (by decide) (by decide) (by decide) (by decide) (by decide) (by decide)
     (by decide) (by decide)⟩
